import Mathlib

/-!
Verification of the miniwdl lint layer: a shallow embedding of
`WDL/Walker.py` and `WDL/Lint.py` (tree-traversal framework, annotation
passes, rule engine and rule hooks), together with theorems about the
documented properties of that layer.

The AST node classes themselves (`WDL/Tree.py`, `WDL/Expr.py`,
`WDL/Error.py`, `WDL/Type.py`, `WDL/_util.py`) are external collaborators
consumed via a fixed contract; their field layout and the children
enumeration are modelled from the spec (sections 3, 4.1 and 4.3).
Everything that is code of `Walker.py` / `Lint.py` is translated from the
source directly.

Annotation state (the `parent`, `called`, `referrers` and `lint` fields the
passes attach to nodes) is modelled by association lists keyed on a node
identity `nid : Nat`; an update conses to the front, and lookup takes the
first (i.e. the temporally last) binding, which matches overwriting an
attribute on a Python object.
-/

namespace WDL

/-- Source position, as assigned by the external parser (spec section 3). -/
structure SourcePosition where
  filename : String
  line : Nat
  column : Nat
  end_line : Nat
  end_column : Nat
deriving DecidableEq, Repr

/-- One lint finding: the tuple `(pos, lint_class, message)` appended to a
node's `lint` list by `Linter.add`. -/
structure Diagnostic where
  pos : SourcePosition
  rule : String
  message : String
deriving DecidableEq, Repr

/-- WDL value types. Modelled from the spec: the external `Type` module
exposes is-array predicates, `item_type`, a `nonempty` flag, etc.
Only the constructors the verified rules inspect are distinguished;
everything else is `other`. -/
inductive WDLType where
  | boolean
  | int
  | float
  | string
  | file
  | array (item : WDLType) (nonempty : Bool)
  | other (name : String)
deriving DecidableEq, Repr

/-- Modelled from the spec: rendering of a type as done by the external
`Type.__str__`, used inside diagnostic messages. -/
def WDLType.str : WDLType → String
  | .boolean => "Boolean"
  | .int => "Int"
  | .float => "Float"
  | .string => "String"
  | .file => "File"
  | .array item ne => "Array[" ++ WDLType.str item ++ "]" ++ (if ne then "+" else "")
  | .other n => n

/-- The object an `Expr.Ident`'s `referee` resolves to: a `Tree.Decl`, a
`Tree.Call`, a `Tree.Gather` indirection wrapping another referee, or
something else.  The position stored in the `declRef`/`callRef`
constructors is the `pos` of the referenced node (used by
`ForwardReference`). -/
inductive Referee where
  | declRef (nid : Nat) (pos : SourcePosition)
  | callRef (nid : Nat) (pos : SourcePosition)
  | gatherRef (inner : Referee)
  | otherRef
deriving Repr

/-- What kind of expression a node is, as far as the verified rules care:
an `Expr.Ident` (with `name`, `namespace` and resolved `referee`) or any
other expression. -/
inductive ExprKind where
  | ident (name : String) (ns : List String) (referee : Referee)
  | other
deriving Repr

/-- Expression node.  `children` is the operand sub-expression enumeration
of spec section 4.1. -/
inductive Expr where
  | mk (nid : Nat) (pos : SourcePosition) (ty : WDLType) (kind : ExprKind)
      (children : List Expr)
deriving Repr

def Expr.nid : Expr → Nat
  | .mk n _ _ _ _ => n

def Expr.pos : Expr → SourcePosition
  | .mk _ p _ _ _ => p

def Expr.ty : Expr → WDLType
  | .mk _ _ t _ _ => t

def Expr.kind : Expr → ExprKind
  | .mk _ _ _ k _ => k

def Expr.children : Expr → List Expr
  | .mk _ _ _ _ cs => cs

/-- A part of a task command: literal text or an interpolated placeholder
(`Expr.Placeholder`, carrying its own source span and inner expression). -/
inductive CmdPart where
  | str (s : String)
  | placeholder (pos : SourcePosition) (e : Expr)
deriving Repr

/-- A task's command (`Expr.String` in the source, with `parts`). -/
structure TaskCommand where
  nid : Nat
  pos : SourcePosition
  parts : List CmdPart
deriving Repr

/-- The expressions a generic traversal descends into from a command node:
the interpolated placeholder expressions, in order. -/
def TaskCommand.childExprs (c : TaskCommand) : List Expr :=
  c.parts.filterMap (fun p =>
    match p with
    | .str _ => Option.none
    | .placeholder _ e => some e)

/-- The command viewed as an expression node by the generic walker. -/
def TaskCommand.asExpr (c : TaskCommand) : Expr :=
  .mk c.nid c.pos .string .other c.childExprs

/-- Value declaration (`Tree.Decl`). -/
structure Decl where
  nid : Nat
  pos : SourcePosition
  ty : WDLType
  name : String
  expr : Option Expr
deriving Repr

/-- The target of a call: whether the resolved `callee` is a
`Tree.Workflow` (as opposed to a `Tree.Task`), and its node identity. -/
structure CalleeRef where
  isWorkflow : Bool
  nid : Nat
deriving Repr

/-- Call site (`Tree.Call`).  Its named input bindings are consumed
specially by individual rules and are not part of the generic children
enumeration (spec section 4.1).  `effective_outputs` is modelled from the
spec as the list of output names the call exposes. -/
structure CallNode where
  nid : Nat
  pos : SourcePosition
  name : String
  callee : CalleeRef
  inputs : List (String × Expr)
  effective_outputs : List String
deriving Repr

/-- Workflow body element: declaration, call, scatter or conditional.
Scatter and conditional sections carry their governing expression and
their ordered body elements (spec sections 4.1 and 4.6). -/
inductive WFElt where
  | decl (d : Decl)
  | call (c : CallNode)
  | scatter (nid : Nat) (pos : SourcePosition) (var : String) (scExpr : Expr)
      (elements : List WFElt)
  | conditional (nid : Nat) (pos : SourcePosition) (condExpr : Expr)
      (elements : List WFElt)
deriving Repr

/-- The node identity of a workflow body element. -/
def WFElt.nid : WFElt → Nat
  | .decl d => d.nid
  | .call c => c.nid
  | .scatter n _ _ _ _ => n
  | .conditional n _ _ _ => n

/-- Workflow (`Tree.Workflow`): optional `inputs` section, ordered body
`elements`, optional `outputs` section. -/
structure Workflow where
  nid : Nat
  pos : SourcePosition
  name : String
  inputs : Option (List Decl)
  elements : List WFElt
  outputs : Option (List Decl)
deriving Repr

/-- Task (`Tree.Task`): inputs, post-input declarations, command, runtime
section and outputs; `meta` modelled as string key/value pairs. -/
structure Task where
  nid : Nat
  pos : SourcePosition
  name : String
  inputs : Option (List Decl)
  postinputs : List Decl
  command : TaskCommand
  runtime : List (String × Expr)
  outputs : List Decl
  meta : List (String × String)
deriving Repr

/-- Struct type definition (`Tree.StructTypeDef`). -/
structure StructTypeDef where
  nid : Nat
  pos : SourcePosition
  name : String
  imported : Bool
deriving Repr

/-- Document (`Tree.Document`): imported documents (with their import
namespaces), struct type definitions, tasks and the optional workflow. -/
inductive Document where
  | mk (nid : Nat) (pos : SourcePosition) (imports : List (String × Document))
      (structTypedefs : List StructTypeDef) (tasks : List Task)
      (workflow : Option Workflow)
deriving Repr

def Document.nid : Document → Nat
  | .mk n _ _ _ _ _ => n

def Document.imports : Document → List (String × Document)
  | .mk _ _ i _ _ _ => i

def Document.structTypedefs : Document → List StructTypeDef
  | .mk _ _ _ s _ _ => s

def Document.tasks : Document → List Task
  | .mk _ _ _ _ t _ => t

def Document.workflow : Document → Option Workflow
  | .mk _ _ _ _ _ w => w

/-! ## Annotation state

The `parent` annotation written by `Walker.SetParents`: an association list
from node identity to the assigned parent (`Option.none` standing for
Python's `None`).  Setting an attribute conses; looking it up takes the
first (most recent) binding. -/

/-- State of the `parent` attributes: `(nid, parent)` bindings, most recent
first. -/
abbrev PMap := List (Nat × Option Nat)

/-- Assign `obj.parent = v` for the node with identity `k`. -/
def pset (m : PMap) (k : Nat) (v : Option Nat) : PMap := (k, v) :: m

/-- Read the `parent` attribute of node `k`: `Option.none` when the
attribute was never assigned. -/
def plookup (m : PMap) (k : Nat) : Option (Option Nat) :=
  (m.find? (fun kv => kv.1 == k)).map (fun kv => kv.2)

/-! ## Walker.SetParents

Translated from `Walker.py` lines 155-227.  Each handler first descends
into the node's children (the `super()` call, i.e. `Base._descend` in the
manual-descend discipline), then performs its assignments.  The explicit
`_parent_stack` of current tree-node containers is threaded as a parameter
`stack` (top at the head); `Call`, `Scatter`, `Conditional`, `Task` and
`Decl` push themselves around their descent, and each visited expression is
assigned the stack top (`_parent_stack[-1]`). -/

mutual
/-- `SetParents.expr`: descend into operand sub-expressions, then assign
`obj.parent = self._parent_stack[-1]`.  (With an empty stack the source
would raise `IndexError`; that situation is unreachable in the traversals
below, and is modelled by assigning `Option.none`.) -/
def spExpr (stack : List Nat) (st : PMap) (e : Expr) : PMap :=
  match e with
  | .mk nid _ _ _ children =>
    let st1 := spExprList stack st children
    pset st1 nid stack.head?

/-- Descend into a list of sub-expressions, in order. -/
def spExprList (stack : List Nat) (st : PMap) (es : List Expr) : PMap :=
  match es with
  | [] => st
  | e :: rest => spExprList stack (spExpr stack st e) rest
end

/-- `SetParents.decl`: push the declaration, descend into its initializer
expression (its only child), pop.  The declaration's own `parent` is
assigned by its container. -/
def spDecl (stack : List Nat) (st : PMap) (d : Decl) : PMap :=
  match d.expr with
  | some e => spExpr (d.nid :: stack) st e
  | Option.none => st

/-- Visit a list of declarations, in order. -/
def spDeclList (stack : List Nat) (st : PMap) (ds : List Decl) : PMap :=
  ds.foldl (fun acc d => spDecl stack acc d) st

/-- The `for elt in ...: elt.parent = obj` loops: assign `some p` as parent
of each element of `elts`, in order. -/
def spAssignEltRoots (st : PMap) (elts : List WFElt) (p : Nat) : PMap :=
  elts.foldl (fun acc e => pset acc e.nid (some p)) st

/-- Assignment loop over declaration lists (task/workflow inputs and
outputs). -/
def spAssignDeclRoots (st : PMap) (ds : List Decl) (p : Nat) : PMap :=
  ds.foldl (fun acc d => pset acc d.nid (some p)) st

mutual
/-- `SetParents` dispatch on one workflow body element.

`call`: push, descend (a call has no generic children), pop — no writes.

`scatter`/`conditional`: push, descend into the governing expression and
the body elements, pop, assign `obj.parent = None`, then assign each body
element's parent. -/
def spElt (stack : List Nat) (st : PMap) (e : WFElt) : PMap :=
  match e with
  | .decl d => spDecl stack st d
  | .call _ => st
  | .scatter nid _ _ scExpr elements =>
    let st1 := spExpr (nid :: stack) st scExpr
    let st2 := spEltList (nid :: stack) st1 elements
    let st3 := pset st2 nid Option.none
    spAssignEltRoots st3 elements nid
  | .conditional nid _ condExpr elements =>
    let st1 := spExpr (nid :: stack) st condExpr
    let st2 := spEltList (nid :: stack) st1 elements
    let st3 := pset st2 nid Option.none
    spAssignEltRoots st3 elements nid

/-- Visit a list of workflow body elements, in order. -/
def spEltList (stack : List Nat) (st : PMap) (es : List WFElt) : PMap :=
  match es with
  | [] => st
  | e :: rest => spEltList stack (spElt stack st e) rest
end

/-- `SetParents.task`: push the task, descend into inputs, post-input
declarations, command, runtime expressions and outputs, pop, assign
`obj.parent = None`, then assign the task as parent of the declarations in
`(inputs or []) + postinputs + outputs`.  The command and runtime
expressions receive the task as parent through the stack. -/
def spTask (stack : List Nat) (st : PMap) (t : Task) : PMap :=
  let stk := t.nid :: stack
  let st1 := spDeclList stk st (t.inputs.getD [])
  let st2 := spDeclList stk st1 t.postinputs
  let st3 := spExpr stk st2 t.command.asExpr
  let st4 := t.runtime.foldl (fun acc kv => spExpr stk acc kv.2) st3
  let st5 := spDeclList stk st4 t.outputs
  let st6 := pset st5 t.nid Option.none
  let st7 := spAssignDeclRoots st6 (t.inputs.getD []) t.nid
  let st8 := spAssignDeclRoots st7 t.postinputs t.nid
  spAssignDeclRoots st8 t.outputs t.nid

/-- `SetParents.workflow`: descend into inputs, body elements and outputs
(the workflow does not push itself), assign `obj.parent = None`, then
assign the workflow as parent of every element of
`(inputs or []) + elements + (outputs or [])`. -/
def spWorkflow (stack : List Nat) (st : PMap) (w : Workflow) : PMap :=
  let st1 := spDeclList stack st (w.inputs.getD [])
  let st2 := spEltList stack st1 w.elements
  let st3 := spDeclList stack st2 (w.outputs.getD [])
  let st4 := pset st3 w.nid Option.none
  let st5 := spAssignDeclRoots st4 (w.inputs.getD []) w.nid
  let st6 := spAssignEltRoots st5 w.elements w.nid
  spAssignDeclRoots st6 (w.outputs.getD []) w.nid

mutual
/-- `SetParents.document`: descend into the children (imported documents,
struct type definitions — which have no children of their own —, tasks and
the optional workflow), then assign `obj.parent = None`, the document as
parent of each imported document, each struct typedef, each task, and the
workflow. -/
def spDocument (st : PMap) (d : Document) : PMap :=
  match d with
  | .mk nid _ imports structs tasks workflow =>
    let st1 := spImports st imports
    let st2 := tasks.foldl (fun acc t => spTask [] acc t) st1
    let st3 := match workflow with
      | some w => spWorkflow [] st2 w
      | Option.none => st2
    let st4 := pset st3 nid Option.none
    let st5 := imports.foldl (fun acc kv => pset acc kv.2.nid (some nid)) st4
    let st6 := structs.foldl (fun acc s => pset acc s.nid (some nid)) st5
    let st7 := tasks.foldl (fun acc t => pset acc t.nid (some nid)) st6
    match workflow with
    | some w => pset st7 w.nid (some nid)
    | Option.none => st7

/-- Descend into imported documents, in order (`descend_imports` is true
when `lint` runs the pass). -/
def spImports (st : PMap) (l : List (String × Document)) : PMap :=
  match l with
  | [] => st
  | (_, d) :: rest => spImports (spDocument st d) rest
end

/-- `Walker.SetParents()(doc)`: run the pass from an empty annotation state
with an empty container stack. -/
def setParents (d : Document) : PMap := spDocument [] d

/-! ## Node enumerations

The identities of all nodes reachable through the children enumeration,
listed per subtree.  These are the nodes a traversal with
`descend_imports=True` visits. -/

mutual
/-- Identities of an expression and its sub-expressions. -/
def exprIds (e : Expr) : List Nat :=
  match e with
  | .mk nid _ _ _ children => nid :: exprListIds children

def exprListIds (es : List Expr) : List Nat :=
  match es with
  | [] => []
  | e :: rest => exprIds e ++ exprListIds rest
end

/-- Identities of a declaration and its initializer expression. -/
def declIds (d : Decl) : List Nat :=
  d.nid :: (match d.expr with
    | some e => exprIds e
    | Option.none => [])

def declListIds (ds : List Decl) : List Nat :=
  match ds with
  | [] => []
  | d :: rest => declIds d ++ declListIds rest

mutual
/-- Identities in a workflow body element subtree. -/
def eltIds (e : WFElt) : List Nat :=
  match e with
  | .decl d => declIds d
  | .call c => [c.nid]
  | .scatter nid _ _ scExpr elements => nid :: (exprIds scExpr ++ eltListIds elements)
  | .conditional nid _ condExpr elements => nid :: (exprIds condExpr ++ eltListIds elements)

def eltListIds (es : List WFElt) : List Nat :=
  match es with
  | [] => []
  | e :: rest => eltIds e ++ eltListIds rest
end

/-- Identities in a task subtree (inputs, post-input declarations, command
expressions, runtime expressions, outputs). -/
def taskIds (t : Task) : List Nat :=
  t.nid :: (declListIds (t.inputs.getD []) ++ declListIds t.postinputs ++
    exprIds t.command.asExpr ++
    (t.runtime.map (fun kv => exprIds kv.2)).flatten ++
    declListIds t.outputs)

/-- Identities in a workflow subtree. -/
def wfIds (w : Workflow) : List Nat :=
  w.nid :: (declListIds (w.inputs.getD []) ++ eltListIds w.elements ++
    declListIds (w.outputs.getD []))

mutual
/-- Identities in a document subtree. -/
def docIds (d : Document) : List Nat :=
  match d with
  | .mk nid _ imports structs tasks workflow =>
    nid :: (importsIds imports ++ structs.map (fun s => s.nid) ++
      (tasks.map taskIds).flatten ++
      (match workflow with
       | some w => wfIds w
       | Option.none => []))

def importsIds (l : List (String × Document)) : List Nat :=
  match l with
  | [] => []
  | (_, d) :: rest => docIds d ++ importsIds rest
end

mutual
/-- Identities of the Task and Workflow nodes of a document tree (the nodes
carrying the `called` annotation). -/
def execIds (d : Document) : List Nat :=
  match d with
  | .mk _ _ imports _ tasks workflow =>
    importsExecIds imports ++ tasks.map (fun t => t.nid) ++
      (match workflow with
       | some w => [w.nid]
       | Option.none => [])

def importsExecIds (l : List (String × Document)) : List Nat :=
  match l with
  | [] => []
  | (_, d) :: rest => execIds d ++ importsExecIds rest
end

mutual
/-- All workflows of a document tree, as an association list keyed by their
node identity; the document's own workflow comes before those of its
imports. -/
def allWfAssoc (d : Document) : List (Nat × Workflow) :=
  match d with
  | .mk _ _ imports _ _ workflow =>
    (match workflow with
     | some w => [(w.nid, w)]
     | Option.none => []) ++ importsWfAssoc imports

def importsWfAssoc (l : List (String × Document)) : List (Nat × Workflow) :=
  match l with
  | [] => []
  | (_, d) :: rest => allWfAssoc d ++ importsWfAssoc rest
end

/-- Look up a workflow by node identity (models following a `callee`
reference to a `Tree.Workflow` object). -/
def wfLookup (wfs : List (Nat × Workflow)) (k : Nat) : Option Workflow :=
  ((wfs.find? (fun kv => kv.1 == k)).map (fun kv => kv.2))

mutual
/-- All calls appearing in a list of workflow body elements (descending
into scatter and conditional sections), in traversal order. -/
def callsOfElt (e : WFElt) : List CallNode :=
  match e with
  | .decl _ => []
  | .call c => [c]
  | .scatter _ _ _ _ elements => callsOfElts elements
  | .conditional _ _ _ elements => callsOfElts elements

def callsOfElts (es : List WFElt) : List CallNode :=
  match es with
  | [] => []
  | e :: rest => callsOfElt e ++ callsOfElts rest
end

/-! ## Walker.MarkCalled

Translated from `Walker.py` lines 230-259.  The `called : Bool` annotation
is an association list like `PMap`; `marking` is the instance flag `True
while recursing from the top-level workflow`.

The pass re-enters workflows through `Call.callee` references, which are
not structurally smaller, so the functions take a fuel parameter and return
`Option.none` when it runs out; `Option.none` also models the
`assert not self.marking` failure on re-entering the top-level workflow
(the source diverges or raises in those situations). -/

/-- State of the `called` attributes. -/
abbrev CMap := List (Nat × Bool)

def cset (m : CMap) (k : Nat) (v : Bool) : CMap := (k, v) :: m

def clookup (m : CMap) (k : Nat) : Option Bool :=
  (m.find? (fun kv => kv.1 == k)).map (fun kv => kv.2)

/-- The `called` flag of node `k` (`false` when never assigned, matching
`getattr(-, "called", False)` as consumers read it). -/
def calledOf (m : CMap) (k : Nat) : Bool := (clookup m k).getD false

/-- `obj.parent.parent is None`: the workflow's parent is its containing
document, whose own `parent` is `None` exactly when no document imports
it.  Reads the annotation state produced by `SetParents`.  (If either
attribute were unassigned the source would raise `AttributeError`; that is
modelled as `false`.) -/
def mcTopTest (pm : PMap) (wnid : Nat) : Bool :=
  match plookup pm wnid with
  | some (some p) =>
    match plookup pm p with
    | some Option.none => true
    | _ => false
  | _ => false

mutual
/-- `MarkCalled.workflow`: set `obj.called = False`; if
`obj.parent.parent is None` assert `not marking`, set `obj.called = True`
and descend with `marking = True`; else descend only when already
`marking`. -/
def mcVisitWf (wfs : List (Nat × Workflow)) (pm : PMap) (fuel : Nat)
    (marking : Bool) (st : CMap) (w : Workflow) : Option CMap :=
  match fuel with
  | 0 => Option.none
  | f + 1 =>
    let st1 := cset st w.nid false
    if mcTopTest pm w.nid then
      if marking then Option.none
      else mcElems wfs pm f (cset st1 w.nid true) w.elements
    else
      if marking then mcElems wfs pm f st1 w.elements
      else some st1

/-- Descent through the body elements while marking.  Declarations
contribute nothing; scatter and conditional sections are descended
(their governing expressions hit the inert default `expr` handler). -/
def mcElems (wfs : List (Nat × Workflow)) (pm : PMap) (fuel : Nat)
    (st : CMap) (es : List WFElt) : Option CMap :=
  match fuel with
  | 0 => Option.none
  | f + 1 =>
    match es with
    | [] => some st
    | e :: rest =>
      match mcElt wfs pm f st e with
      | some st1 => mcElems wfs pm f st1 rest
      | Option.none => Option.none

def mcElt (wfs : List (Nat × Workflow)) (pm : PMap) (fuel : Nat)
    (st : CMap) (e : WFElt) : Option CMap :=
  match fuel with
  | 0 => Option.none
  | f + 1 =>
    match e with
    | .decl _ => some st
    | .call c => mcCall wfs pm f st c
    | .scatter _ _ _ _ elements => mcElems wfs pm f st elements
    | .conditional _ _ _ elements => mcElems wfs pm f st elements

/-- `MarkCalled.call`: if the callee is a workflow, visit it (still
marking); then set `obj.callee.called = True`.  (`assert self.marking`
cannot fire: calls are only reached while marking.)  A workflow callee
missing from the tree would be a dangling reference; modelled as failure. -/
def mcCall (wfs : List (Nat × Workflow)) (pm : PMap) (fuel : Nat)
    (st : CMap) (c : CallNode) : Option CMap :=
  match fuel with
  | 0 => Option.none
  | f + 1 =>
    if c.callee.isWorkflow then
      match wfLookup wfs c.callee.nid with
      | some w =>
        match mcVisitWf wfs pm f true st w with
        | some st1 => some (cset st1 c.callee.nid true)
        | Option.none => Option.none
      | Option.none => Option.none
    else
      some (cset st c.callee.nid true)
end

mutual
/-- `MarkCalled.document` (the inherited default handler): descend into
imported documents, struct typedefs (inert), tasks (`Task.called = False`,
no descent into the task body) and the optional workflow, with
`marking = False` at the document level. -/
def mcDoc (wfs : List (Nat × Workflow)) (pm : PMap) (fuel : Nat)
    (st : CMap) (d : Document) : Option CMap :=
  match d with
  | .mk _ _ imports _ tasks workflow =>
    match mcImports wfs pm fuel st imports with
    | some st1 =>
      let st2 := tasks.foldl (fun acc t => cset acc t.nid false) st1
      match workflow with
      | some w => mcVisitWf wfs pm fuel false st2 w
      | Option.none => some st2
    | Option.none => Option.none

def mcImports (wfs : List (Nat × Workflow)) (pm : PMap) (fuel : Nat)
    (st : CMap) (l : List (String × Document)) : Option CMap :=
  match l with
  | [] => some st
  | (_, d) :: rest =>
    match mcDoc wfs pm fuel st d with
    | some st1 => mcImports wfs pm fuel st1 rest
    | Option.none => Option.none
end

/-- `Walker.MarkCalled()(doc)`, run after `SetParents` (whose annotation
state `pm` it reads). -/
def markCalled (pm : PMap) (fuel : Nat) (d : Document) : Option CMap :=
  mcDoc (allWfAssoc d) pm fuel [] d

/-- One edge of the call graph: the workflow with identity `a` contains
(anywhere in its body elements) a call whose callee is the node with
identity `b`.  A path of such edges from the top-level workflow is the
reachability notion of the `called` invariant. -/
def CallEdge (wfs : List (Nat × Workflow)) (a b : Nat) : Prop :=
  ∃ w, wfLookup wfs a = some w ∧ ∃ c ∈ callsOfElts w.elements, c.callee.nid = b

/-! ## Walker.SetReferrers

Translated from `Walker.py` lines 262-281: an auto-descend walker whose
`expr` hook, on each `Expr.Ident`, unwraps `Tree.Gather` indirections from
the resolved `referee` and, when the result is a `Tree.Decl` or
`Tree.Call`, appends the identifier expression to that node's `referrers`
list. -/

/-- State of the `referrers` attributes: each Decl/Call identity maps to
the identities of the identifier expressions referring to it. -/
abbrev RMap := List (Nat × List Nat)

def rlookup (m : RMap) (k : Nat) : List Nat :=
  ((m.find? (fun kv => kv.1 == k)).map (fun kv => kv.2)).getD []

/-- `setattr(referee, "referrers", getattr(referee, "referrers", []) + [obj])`. -/
def rappend (m : RMap) (k : Nat) (v : Nat) : RMap :=
  (k, rlookup m k ++ [v]) :: m

/-- `while isinstance(referee, Tree.Gather): referee = referee.referee`. -/
def unwrapGather : Referee → Referee
  | .gatherRef inner => unwrapGather inner
  | .declRef n p => .declRef n p
  | .callRef n p => .callRef n p
  | .otherRef => .otherRef

/-- The `SetReferrers.expr` hook applied to one expression node (children
are handled by the auto-descend recursion, not here). -/
def srExprHook (st : RMap) (e : Expr) : RMap :=
  match e.kind with
  | .ident _ _ referee =>
    match unwrapGather referee with
    | .declRef n _ => rappend st n e.nid
    | .callRef n _ => rappend st n e.nid
    | _ => st
  | .other => st

mutual
/-- Auto-descend over an expression: hook, then children in order. -/
def srExpr (st : RMap) (e : Expr) : RMap :=
  match e with
  | .mk nid p t k children =>
    srExprList (srExprHook st (Expr.mk nid p t k children)) children

def srExprList (st : RMap) (es : List Expr) : RMap :=
  match es with
  | [] => st
  | e :: rest => srExprList (srExpr st e) rest
end

def srDecl (st : RMap) (d : Decl) : RMap :=
  match d.expr with
  | some e => srExpr st e
  | Option.none => st

def srDeclList (st : RMap) (ds : List Decl) : RMap :=
  ds.foldl srDecl st

mutual
def srElt (st : RMap) (e : WFElt) : RMap :=
  match e with
  | .decl d => srDecl st d
  | .call _ => st
  | .scatter _ _ _ scExpr elements => srEltList (srExpr st scExpr) elements
  | .conditional _ _ condExpr elements => srEltList (srExpr st condExpr) elements

def srEltList (st : RMap) (es : List WFElt) : RMap :=
  match es with
  | [] => st
  | e :: rest => srEltList (srElt st e) rest
end

def srTask (st : RMap) (t : Task) : RMap :=
  let st1 := srDeclList st (t.inputs.getD [])
  let st2 := srDeclList st1 t.postinputs
  let st3 := srExpr st2 t.command.asExpr
  let st4 := t.runtime.foldl (fun acc kv => srExpr acc kv.2) st3
  srDeclList st4 t.outputs

def srWorkflow (st : RMap) (w : Workflow) : RMap :=
  let st1 := srDeclList st (w.inputs.getD [])
  let st2 := srEltList st1 w.elements
  srDeclList st2 (w.outputs.getD [])

mutual
def srDoc (st : RMap) (d : Document) : RMap :=
  match d with
  | .mk _ _ imports _ tasks workflow =>
    let st1 := srImports st imports
    let st2 := tasks.foldl srTask st1
    match workflow with
    | some w => srWorkflow st2 w
    | Option.none => st2

def srImports (st : RMap) (l : List (String × Document)) : RMap :=
  match l with
  | [] => st
  | (_, d) :: rest => srImports (srDoc st d) rest
end

/-- `Walker.SetReferrers()(doc)`. -/
def setReferrers (d : Document) : RMap := srDoc [] d

/-! ## Lint collection

Translated from `Lint.py` lines 99-117 (`_Collector` and `collect`).  The
`lint` annotation each node carries is abstracted as a function from node
identity to its diagnostic list (empty when the attribute is absent).  The
collector's overridden `__call__` first appends the visited node's own
`lint` list to the accumulator, then lets the auto-descend recursion visit
the children — a pre-order flattening. -/

/-- The `lint` annotation: each node's ordered diagnostic list. -/
abbrev LintMap := Nat → List Diagnostic

mutual
def clExpr (L : LintMap) (e : Expr) : List Diagnostic :=
  match e with
  | .mk nid _ _ _ children => L nid ++ clExprList L children

def clExprList (L : LintMap) (es : List Expr) : List Diagnostic :=
  match es with
  | [] => []
  | e :: rest => clExpr L e ++ clExprList L rest
end

def clDecl (L : LintMap) (d : Decl) : List Diagnostic :=
  L d.nid ++ (match d.expr with
    | some e => clExpr L e
    | Option.none => [])

def clDeclList (L : LintMap) (ds : List Decl) : List Diagnostic :=
  match ds with
  | [] => []
  | d :: rest => clDecl L d ++ clDeclList L rest

mutual
def clElt (L : LintMap) (e : WFElt) : List Diagnostic :=
  match e with
  | .decl d => clDecl L d
  | .call c => L c.nid
  | .scatter nid _ _ scExpr elements =>
    L nid ++ (clExpr L scExpr ++ clEltList L elements)
  | .conditional nid _ condExpr elements =>
    L nid ++ (clExpr L condExpr ++ clEltList L elements)

def clEltList (L : LintMap) (es : List WFElt) : List Diagnostic :=
  match es with
  | [] => []
  | e :: rest => clElt L e ++ clEltList L rest
end

def clTask (L : LintMap) (t : Task) : List Diagnostic :=
  L t.nid ++ (clDeclList L (t.inputs.getD []) ++ clDeclList L t.postinputs ++
    clExpr L t.command.asExpr ++
    (t.runtime.map (fun kv => clExpr L kv.2)).flatten ++
    clDeclList L t.outputs)

def clWorkflow (L : LintMap) (w : Workflow) : List Diagnostic :=
  L w.nid ++ (clDeclList L (w.inputs.getD []) ++ clEltList L w.elements ++
    clDeclList L (w.outputs.getD []))

mutual
def clDoc (L : LintMap) (d : Document) : List Diagnostic :=
  match d with
  | .mk nid _ imports structs tasks workflow =>
    L nid ++ (clImports L imports ++
      (structs.map (fun s => L s.nid)).flatten ++
      (tasks.map (clTask L)).flatten ++
      (match workflow with
       | some w => clWorkflow L w
       | Option.none => []))

def clImports (L : LintMap) (l : List (String × Document)) : List Diagnostic :=
  match l with
  | [] => []
  | (_, d) :: rest => clDoc L d ++ clImports L rest
end

/-- `WDL.Lint.collect(doc)`: the collector run over the whole tree. -/
def collect (L : LintMap) (d : Document) : List Diagnostic := clDoc L d

mutual
/-- The pre-order enumeration of visited nodes, written out independently
of the collector: the identity of each node followed by those of its
subtree, children in the fixed enumeration order.  This is the
specification-side ordering against which `collect` is verified. -/
def preDoc (d : Document) : List Nat :=
  match d with
  | .mk nid _ imports structs tasks workflow =>
    nid :: (preImports imports ++ structs.map (fun s => s.nid) ++
      (tasks.map preTask).flatten ++
      (match workflow with
       | some w => preWorkflow w
       | Option.none => []))

def preImports (l : List (String × Document)) : List Nat :=
  match l with
  | [] => []
  | (_, d) :: rest => preDoc d ++ preImports rest

def preTask (t : Task) : List Nat :=
  t.nid :: (preDeclList (t.inputs.getD []) ++ preDeclList t.postinputs ++
    preExpr t.command.asExpr ++
    (t.runtime.map (fun kv => preExpr kv.2)).flatten ++
    preDeclList t.outputs)

def preWorkflow (w : Workflow) : List Nat :=
  w.nid :: (preDeclList (w.inputs.getD []) ++ preEltList w.elements ++
    preDeclList (w.outputs.getD []))

def preElt (e : WFElt) : List Nat :=
  match e with
  | .decl d => preDecl d
  | .call c => [c.nid]
  | .scatter nid _ _ scExpr elements => nid :: (preExpr scExpr ++ preEltList elements)
  | .conditional nid _ condExpr elements => nid :: (preExpr condExpr ++ preEltList elements)

def preEltList (es : List WFElt) : List Nat :=
  match es with
  | [] => []
  | e :: rest => preElt e ++ preEltList rest

def preDecl (d : Decl) : List Nat :=
  d.nid :: (match d.expr with
    | some e => preExpr e
    | Option.none => [])

def preDeclList (ds : List Decl) : List Nat :=
  match ds with
  | [] => []
  | d :: rest => preDecl d ++ preDeclList rest

def preExpr (e : Expr) : List Nat :=
  match e with
  | .mk nid _ _ _ children => nid :: preExprList children

def preExprList (es : List Expr) : List Nat :=
  match es with
  | [] => []
  | e :: rest => preExpr e ++ preExprList rest
end

/-! ## Python string primitives

Python string operations used by the rules, modelled structurally over the
character list of a `String` (the library's compiled string functions are
avoided so that everything evaluates inside the kernel). -/

/-- `str.lower()` (ASCII case, which covers WDL identifiers). -/
def pyLower (s : String) : String := String.mk (s.data.map Char.toLower)

/-- `str.endswith(suffix)`. -/
def pyEndsWith (s suffix : String) : Bool := suffix.data.isSuffixOf s.data

/-- Python whitespace characters as stripped by `str.lstrip()`. -/
def pySpaceChar (c : Char) : Bool :=
  c == ' ' || c == '\t' || c == '\n' || c == '\r' || c == '\x0b' || c == '\x0c'

/-- `str.split("\n")`: split on every newline, keeping empty pieces (an
empty string yields one empty piece). -/
def splitLinesAux (acc : List Char) : List Char → List (List Char)
  | [] => [acc.reverse]
  | c :: rest =>
    if c == '\n' then acc.reverse :: splitLinesAux [] rest
    else splitLinesAux (c :: acc) rest

def splitLines (cs : List Char) : List (List Char) := splitLinesAux [] cs

/-- `line[:len(line) - len(line.lstrip())]`: the longest leading run of
whitespace characters. -/
def lineIndentation (line : List Char) : List Char := line.takeWhile pySpaceChar

/- A string of `n` copies of `c` (Python `c * n`). -/
def repChar (c : Char) (n : Nat) : String := String.mk (List.replicate n c)

/-! ## Failure semantics of the traversal contract (Walker.py / Lint.py)

The three internal-contract assertions, modelled as `Except`-returning
operations: `Base.__call__`'s dispatch over the closed node-kind set
(`Walker.py` lines 39-60), `Multi.__init__`'s check that every multiplexed
walker is auto-descend (`Walker.py` lines 112-116), and `Linter.add`'s
check that lint never attaches to a bare expression (`Lint.py` lines
47-60). -/

/-- The runtime kind of an object reaching `Base.__call__`'s isinstance
chain; `otherK` stands for any object outside the closed set. -/
inductive NodeKind where
  | documentK
  | workflowK
  | callK
  | scatterK
  | conditionalK
  | declK
  | taskK
  | structTypeDefK
  | exprK
  | otherK
deriving DecidableEq, Repr

/-- `Base.__call__`'s dispatch: select the per-kind hook, or `assert False`
for a kind outside the closed set. -/
def walkerDispatch (k : NodeKind) : Except String NodeKind :=
  match k with
  | .otherK => Except.error "AssertionError: unrecognized node kind"
  | k => Except.ok k

/-- The recursion-discipline configuration of a walker instance
(`Base.__init__`). -/
structure WalkerCfg where
  auto_descend : Bool
  descend_imports : Bool
deriving DecidableEq, Repr

/-- `Multi.__init__`: `for w in walkers: assert w.auto_descend`. -/
def multiInit (walkers : List WalkerCfg) : Except String (List WalkerCfg) :=
  if walkers.all (fun w => w.auto_descend) then Except.ok walkers
  else Except.error "AssertionError: w.auto_descend"

/-- The attachment target handed to `Linter.add`: a tree node or a bare
expression node. -/
inductive AddTarget where
  | treeNode (nid : Nat) (pos : SourcePosition)
  | exprNode (nid : Nat) (pos : SourcePosition)
deriving DecidableEq, Repr

/-- `Linter.add(obj, message, pos)`: `assert not isinstance(obj, Expr.Base)`;
otherwise append `(pos or obj.pos, rule, message)` to the node's lint
list. -/
def linterAdd (rule : String) (obj : AddTarget) (message : String)
    (posArg : Option SourcePosition) : Except String Diagnostic :=
  match obj with
  | .exprNode _ _ => Except.error "AssertionError: not isinstance(obj, Expr.Base)"
  | .treeNode _ opos => Except.ok (Diagnostic.mk (posArg.getD opos) rule message)

/-! ## ForwardReference (Lint.py lines 620-640) -/

/-- `referee.pos.line > obj.pos.line or (referee.pos.line == obj.pos.line
and referee.pos.column > obj.pos.column)`. -/
def refPosLater (rpos epos : SourcePosition) : Bool :=
  decide (rpos.line > epos.line) ||
    (decide (rpos.line = epos.line) && decide (rpos.column > epos.column))

/-- The `ForwardReference.expr` hook on one expression: on an `Expr.Ident`
whose gather-unwrapped referee is a Decl or Call positioned later in
source, attach one diagnostic to the expression's parent tree node
(`parentNid`), positioned at the identifier itself. -/
def ForwardReference_expr (parentNid : Nat) (e : Expr) : List (Nat × Diagnostic) :=
  match e.kind with
  | .ident name ns referee =>
    match unwrapGather referee with
    | .declRef _ rpos =>
      if refPosLater rpos e.pos then
        [(parentNid, Diagnostic.mk e.pos "ForwardReference"
          ("reference to " ++ name ++ " precedes its declaration"))]
      else []
    | .callRef _ rpos =>
      if refPosLater rpos e.pos then
        [(parentNid, Diagnostic.mk e.pos "ForwardReference"
          ("reference to output of " ++ String.intercalate "." ns ++ " precedes the call"))]
      else []
    | _ => []
  | .other => []

/-! ## UnusedDeclaration (Lint.py lines 643-688) -/

/-- The view of a declaration's `parent` node that `UnusedDeclaration.decl`
inspects: a workflow (with the identities of its output declarations), a
task (outputs and `meta` section), or anything else.  `meta` values are
modelled as strings, with Python truthiness = nonemptiness. -/
inductive DeclParent where
  | workflowP (outputs : Option (List Nat))
  | taskP (outputs : List Nat) (meta : List (String × String))
  | otherP
deriving Repr

def index_suffixes : List String :=
  ["index", "indexes", "indices", "idx", "tbi", "bai", "crai", "csi", "fai", "dict"]

/-- `pt.meta.get(key)`. -/
def metaGet (meta : List (String × String)) (k : String) : Option String :=
  (meta.find? (fun kv => kv.1 == k)).map (fun kv => kv.2)

/-- `sum(1 for sfx in index_suffixes if obj.name.lower().endswith(sfx))`. -/
def indexSuffixCount (name : String) : Nat :=
  index_suffixes.countP (fun sfx => pyEndsWith (pyLower name) sfx)

/-- The `UnusedDeclaration.decl` hook: flag a declaration that is not an
output of its parent and has no referrers, unless one of the heuristic
exceptions applies (File or Array[File] type with an hts-index-style name;
dxWDL native task stub). -/
def UnusedDeclaration_decl (obj : Decl) (pt : DeclParent) (referrers : List Nat) :
    List Diagnostic :=
  let is_output :=
    match pt with
    | .workflowP outs => (outs.getD []).contains obj.nid
    | .taskP outs _ => outs.contains obj.nid
    | .otherP => false
  if !is_output && referrers.isEmpty then
    let fileIdx :=
      (match obj.ty with
       | .file => true
       | _ => false) && (indexSuffixCount obj.name != 0)
    let arrayFileIdx :=
      (match obj.ty with
       | .array .file _ => true
       | _ => false) && (indexSuffixCount obj.name != 0)
    let nativeStub :=
      match pt with
      | .taskP _ meta =>
        (metaGet meta "type" == some "native") &&
          (match metaGet meta "id" with
           | some s => !s.data.isEmpty
           | Option.none => false)
      | _ => false
    if !(fileIdx || arrayFileIdx || nativeStub) then
      [Diagnostic.mk obj.pos "UnusedDeclaration"
        ("nothing references " ++ obj.ty.str ++ " " ++ obj.name)]
    else []
  else []

/-! ## UnusedCall (Lint.py lines 691-709) -/

/-- One step of the parent chain above a call, as inspected by the
`while not isinstance(workflow, Tree.Workflow)` climb. -/
inductive AncestorNode where
  | workflowA (name : String) (outputs : Option (List Nat))
  | otherA
deriving Repr

/-- Climb the parent chain to the nearest enclosing workflow;
`Option.none` models the `AttributeError` the source would raise if the
chain ran out. -/
def findEnclosingWorkflow : List AncestorNode → Option (String × Option (List Nat))
  | [] => Option.none
  | .workflowA n o :: _ => some (n, o)
  | .otherA :: rest => findEnclosingWorkflow rest

/-- The `UnusedCall.call` hook: flag a call with nonempty
`effective_outputs` and no referrers, but only when the nearest enclosing
workflow has an outputs section (`workflow.outputs is not None`). -/
def UnusedCall_call (obj : CallNode) (ancestors : List AncestorNode)
    (referrers : List Nat) : Option (List Diagnostic) :=
  if !obj.effective_outputs.isEmpty && referrers.isEmpty then
    match findEnclosingWorkflow ancestors with
    | some (wname, outs) =>
      some (if outs.isSome then
        [Diagnostic.mk obj.pos "UnusedCall"
          ("nothing references the outputs of the call " ++ obj.name ++
            " nor are are they output from the workflow " ++ wname)]
      else [])
    | Option.none => Option.none
  else some []

/-! ## MixedIndentation (Lint.py lines 851-872) -/

/-- One command part as seen by `MixedIndentation`: literal text, or a
single `$` sentinel for a placeholder. -/
def cmdPartChars (p : CmdPart) : List Char :=
  match p with
  | .str s => s.data
  | .placeholder _ _ => ['$']

/-- `"".join(...).split("\n")`. -/
def commandLines (parts : List CmdPart) : List (List Char) :=
  splitLines ((parts.map cmdPartChars).flatten)

/-- Whether a command line's leading whitespace mixes spaces and tabs. -/
def mixedLine (line : List Char) : Bool :=
  (lineIndentation line).contains ' ' && (lineIndentation line).contains '\t'

/-- The `for ofs, line in enumerate(command_lines)` loop with its `break`:
report the first offending line only. -/
def MixedIndentation_scan (filename : String) (cmdLine : Nat) (ofs : Nat) :
    List (List Char) → List Diagnostic
  | [] => []
  | line :: rest =>
    if mixedLine line then
      [Diagnostic.mk
        (SourcePosition.mk filename (cmdLine + ofs) 1 (cmdLine + ofs) line.length)
        "MixedIndentation" "command indented with both spaces & tabs"]
    else MixedIndentation_scan filename cmdLine (ofs + 1) rest

/-- The `MixedIndentation.task` hook. -/
def MixedIndentation_task (t : Task) : List Diagnostic :=
  MixedIndentation_scan t.command.pos.filename t.command.pos.line 0
    (commandLines t.command.parts)

/-! ## CommandShellCheck (Lint.py lines 733-848)

The external pieces — the `shellcheck` binary (`shutil.which` probe and
`subprocess.check_output` invocation), `json.loads` together with the
validation and field extraction of its result, and
`_util.strip_leading_whitespace` — are parameters gathered in
`ShellCheckEnv`.  `runShellcheck` returns the subprocess's exit code and
captured standard output; `parseJSON` returns `Option.none` whenever
`json.loads`, the list assertion, or item field access fails. -/

/-- One finding in shellcheck's JSON output
(`item["line"]`, `item["column"]`, `item["code"]`, `item["message"]`). -/
structure SCItem where
  line : Nat
  column : Nat
  code : Nat
  message : String
deriving DecidableEq, Repr

/-- The external-world parameters of the rule. -/
structure ShellCheckEnv where
  available : Bool
  strip_leading_whitespace : String → Nat × String
  runShellcheck : String → Nat × String
  parseJSON : String → Option (List SCItem)

/-- `_shellcheck_dummy_value(ty, pos)` (`Lint.py` lines 835-848). -/
def shellcheckDummyValue : WDLType → SourcePosition → String
  | .array item _, pos => shellcheckDummyValue item pos
  | .boolean, _ => "false"
  | .int, pos => repChar '4' (max 1 (pos.end_column - pos.column) + 3)
  | .float, pos => repChar '4' (max 1 (pos.end_column - pos.column) + 3)
  | _, pos => repChar 'x' (max 1 (pos.end_column - pos.column) + 3)

/-- The synthesized script: the command's literal parts joined with dummy
values substituted for each placeholder. -/
def shellcheckScript (t : Task) : String :=
  String.join (t.command.parts.map (fun p =>
    match p with
    | .str s => s
    | .placeholder pos e => shellcheckDummyValue e.ty pos))

/-- Remap one shellcheck finding into source coordinates. -/
def shellcheckRemap (t : Task) (col_offset : Nat) (item : SCItem) : Diagnostic :=
  let line := t.command.pos.line + item.line - 1
  let column := col_offset + item.column - 1
  Diagnostic.mk
    (SourcePosition.mk t.command.pos.filename line column line column)
    "CommandShellCheck"
    ("SC" ++ toString item.code ++ " " ++ item.message)

/-- The degraded-service diagnostic for an unexpected exit code. -/
def shellcheckFailDiag (t : Task) : Diagnostic :=
  Diagnostic.mk t.command.pos "CommandShellCheck"
    "shellcheck failed on the task command; update shellcheck version or use --no-shellcheck to suppress this warning"

/-- The degraded-service diagnostic for a JSON parsing failure. -/
def shellcheckJsonDiag (t : Task) : Diagnostic :=
  Diagnostic.mk t.command.pos "CommandShellCheck"
    "error parsing shellcheck output JSON; update shellcheck version or use --no-shellcheck to suppress this warning"

/-- The `CommandShellCheck.task` hook.  Returns the diagnostics attached to
the task together with the number of subprocesses spawned.

Mirrors the source's control flow: `if not _shellcheck_available: return`;
run the checker; exit code 0 (no exception) or 1 (`CalledProcessError`
with `returncode in (0, 1)`) keeps the output for parsing, any other exit
code attaches the failure diagnostic and leaves `shellcheck_items = None`;
parsing happens only under `if shellcheck_items:` — i.e. only when the
kept output is nonempty — and a parse failure attaches the JSON error
diagnostic. -/
def CommandShellCheck_task (env : ShellCheckEnv) (t : Task) : List Diagnostic × Nat :=
  if env.available then
    let stripped := env.strip_leading_whitespace (shellcheckScript t)
    let col_offset := stripped.1
    let command := stripped.2
    let res := env.runShellcheck command
    let code := res.1
    let out := res.2
    if code == 0 || code == 1 then
      if !out.data.isEmpty then
        match env.parseJSON out with
        | some items => (items.map (shellcheckRemap t col_offset), 1)
        | Option.none => ([shellcheckJsonDiag t], 1)
      else ([], 1)
    else ([shellcheckFailDiag t], 1)
  else ([], 0)

/-! ## lint orchestration (Lint.py lines 63-96)

`lint(doc)` runs `SetParents`, `MarkCalled` and `SetReferrers` in that
order, then all registered rules over the annotated tree (the auto-descend
ones multiplexed, the rest independently), attaching diagnostics in place;
`collect` then flattens them.

The open set of registered rules other than `CommandShellCheck` consists of
pure per-tree computations: each rule instance is freshly constructed and
its hooks read only the node and the annotations, so their combined
contribution is a function of the document and the three annotation
states; that function is the `pureRules` parameter.  `CommandShellCheck`
is the one rule touching process-wide state: the `_shellcheck_available`
cache, probed with `shutil.which` on first construction; the cache and the
probe outcome are modelled explicitly. -/

/-- The process-wide `_shellcheck_available` cache logic in
`CommandShellCheck.__init__`: probe `shutil.which` only when the cache is
unset. -/
def shellcheckProbe (which : Bool) (cache : Option Bool) : Bool × Option Bool :=
  match cache with
  | some v => (v, some v)
  | Option.none => (which, some which)

mutual
/-- All tasks of the document tree, in traversal order. -/
def allTasks (d : Document) : List Task :=
  match d with
  | .mk _ _ imports _ tasks _ => importsTasks imports ++ tasks

def importsTasks (l : List (String × Document)) : List Task :=
  match l with
  | [] => []
  | (_, d) :: rest => allTasks d ++ importsTasks rest
end

/-- The environment of one `lint` invocation: the `shutil.which` probe
outcome, the external pieces of `CommandShellCheck`, and the combined
pure contribution of every other registered rule. -/
structure LintEnv where
  whichShellcheck : Bool
  strip_leading_whitespace : String → Nat × String
  runShellcheck : String → Nat × String
  parseJSON : String → Option (List SCItem)
  pureRules : Document → PMap → CMap → RMap → List Diagnostic

/-- One run of `WDL.Lint.lint` followed by `WDL.Lint.collect`, on a freshly
parsed tree (annotation state starts empty), threading the process-wide
shellcheck cache.  Returns the updated cache and the collected
diagnostics; `Option.none` stands for a `MarkCalled` run that does not
terminate (cyclic call graph). -/
def lintRun (env : LintEnv) (fuel : Nat) (cache : Option Bool) (d : Document) :
    Option Bool × Option (List Diagnostic) :=
  let pm := setParents d
  let rm := setReferrers d
  let probed := shellcheckProbe env.whichShellcheck cache
  match markCalled pm fuel d with
  | some cm =>
    let scEnv : ShellCheckEnv :=
      ShellCheckEnv.mk probed.1 env.strip_leading_whitespace env.runShellcheck env.parseJSON
    let scDiags := ((allTasks d).map (fun t => (CommandShellCheck_task scEnv t).1)).flatten
    (probed.2, some (env.pureRules d pm cm rm ++ scDiags))
  | Option.none => (probed.2, Option.none)

/-! ## A sample document

A small document tree used to witness the theorems on concrete input: a
root document (a workflow calling, through a scatter, a subworkflow of an
imported document, which in turn calls an imported task; plus an uncalled
task in each document). -/

def posA : SourcePosition := SourcePosition.mk "a.wdl" 1 1 1 2

def exampleDoc : Document :=
  Document.mk 0 posA
    [("lib",
      Document.mk 1 posA []
        []
        [Task.mk 2 posA "t2" Option.none []
          (TaskCommand.mk 20 posA [CmdPart.str "echo"]) [] [] [],
         Task.mk 10 posA "t10" Option.none []
          (TaskCommand.mk 21 posA [CmdPart.str "echo"]) [] [] []]
        (some (Workflow.mk 11 posA "subwf" Option.none
          [WFElt.call (CallNode.mk 12 posA "c12" (CalleeRef.mk false 2) [] ["out"])]
          Option.none)))]
    []
    [Task.mk 13 posA "t13" Option.none
      [Decl.mk 3 posA WDLType.int "x" (some (Expr.mk 4 posA WDLType.int ExprKind.other []))]
      (TaskCommand.mk 5 posA [CmdPart.str "echo"]) [] [] []]
    (some (Workflow.mk 6 posA "wf" Option.none
      [WFElt.scatter 7 posA "i" (Expr.mk 8 posA WDLType.int ExprKind.other [])
        [WFElt.call (CallNode.mk 9 posA "c9" (CalleeRef.mk true 11) [] ["out"])]]
      Option.none))

/-! # Theorems -/

/-- C4: each of the three internal contract violations — dispatching a node
whose kind is outside the closed set, constructing the multiplexer with a
walker not using the auto-descend discipline, and calling a linter's `add`
with a bare expression as attachment target — is a fatal assertion failure
(an `Except.error`, never an ordinary result), and conversely none of the
three operations fails on conforming input. -/
theorem walker_contract_assertions_fatal :
    (∀ k : NodeKind,
      (∃ e, walkerDispatch k = Except.error e) ↔ k = NodeKind.otherK) ∧
    (∀ ws : List WalkerCfg,
      (∃ e, multiInit ws = Except.error e) ↔ ∃ w ∈ ws, w.auto_descend = false) ∧
    (∀ (rule : String) (obj : AddTarget) (message : String)
        (posArg : Option SourcePosition),
      (∃ e, linterAdd rule obj message posArg = Except.error e) ↔
        ∃ n p, obj = AddTarget.exprNode n p) := by
  refine ⟨fun k => ?_, fun ws => ?_, fun rule obj message posArg => ?_⟩
  · cases k <;> simp [walkerDispatch]
  · by_cases h : ws.all (fun w => w.auto_descend)
    · simp only [multiInit, h, if_true]
      constructor
      · rintro ⟨e, he⟩
        exact absurd he (by simp)
      · rintro ⟨w, hw, hfalse⟩
        have := List.all_eq_true.mp h w hw
        simp [hfalse] at this
    · simp only [multiInit, h, if_false]
      constructor
      · rintro ⟨e, -⟩
        rcases List.all_eq_false.mp (Bool.eq_false_iff.mpr h) with ⟨w, hw, hna⟩
        exact ⟨w, hw, by simpa using hna⟩
      · intro _
        exact ⟨"AssertionError: w.auto_descend", rfl⟩
  · cases obj with
    | treeNode n p => simp [linterAdd]
    | exprNode n p =>
      simp only [linterAdd]
      exact ⟨fun _ => ⟨n, p, rfl⟩, fun _ => ⟨_, rfl⟩⟩

/-- C4 witness: the multiplexer constructed over a manual-descend walker
instance, and `add` called with an expression target, both fail their
assertions. -/
theorem walker_contract_assertions_fatal_witness :
    (∃ e, multiInit [WalkerCfg.mk false true] = Except.error e) ∧
    (∃ e, linterAdd "StringCoercion"
        (AddTarget.exprNode 3 (SourcePosition.mk "a.wdl" 1 1 1 2)) "msg"
        Option.none = Except.error e) :=
  ⟨(walker_contract_assertions_fatal.2.1 [WalkerCfg.mk false true]).mpr
      ⟨WalkerCfg.mk false true, by simp⟩,
   (walker_contract_assertions_fatal.2.2 "StringCoercion"
      (AddTarget.exprNode 3 (SourcePosition.mk "a.wdl" 1 1 1 2)) "msg"
      Option.none).mpr ⟨3, SourcePosition.mk "a.wdl" 1 1 1 2, rfl⟩⟩

/-- C8: running `lint` followed by `collect` twice on fresh parses of the
same source yields the same diagnostics (the same list, hence the same
multiset with the same per-node order).  The annotation passes and every
rule are functions of the tree; the only process-wide state is the
`_shellcheck_available` cache, which the first run leaves holding exactly
the probed value, so the second run behaves identically. -/
theorem lint_collect_idempotent (env : LintEnv) (fuel : Nat) (d : Document) :
    (lintRun env fuel (lintRun env fuel Option.none d).1 d).2 =
      (lintRun env fuel Option.none d).2 := by
  simp only [lintRun, shellcheckProbe]
  cases markCalled (setParents d) fuel d <;> rfl

/-- C10: `UnusedCall.call` attaches a diagnostic only when the nearest
enclosing workflow has an outputs section: whenever that workflow's
`outputs` is `None`, the hook attaches nothing, regardless of the call's
referrers; and a diagnostic can only arise from a call with nonempty
`effective_outputs`, an empty referrers list, and an enclosing workflow
whose outputs section is present. -/
theorem unusedCall_requires_outputs_section (c : CallNode)
    (anc : List AncestorNode) (refs : List Nat) (wname : String)
    (outs : Option (List Nat))
    (hfind : findEnclosingWorkflow anc = some (wname, outs)) :
    (outs = Option.none → UnusedCall_call c anc refs = some []) ∧
    (∀ l, UnusedCall_call c anc refs = some l → l ≠ [] →
      outs.isSome = true ∧ c.effective_outputs ≠ [] ∧ refs = []) := by
  constructor
  · intro houts
    unfold UnusedCall_call
    split
    · rw [hfind, houts]
      simp
    · rfl
  · intro l hl hne
    unfold UnusedCall_call at hl
    split at hl
    · rw [hfind] at hl
      rename_i hcond
      simp only [Option.some_inj] at hl
      subst hl
      cases houts : outs.isSome with
      | true =>
        refine ⟨rfl, ?_, ?_⟩
        · intro he
          simp [he] at hcond
        · cases refs with
          | nil => rfl
          | cons a as => simp at hcond
      | false => simp [houts] at hne
    · simp only [Option.some_inj] at hl
      subst hl
      exact absurd rfl hne

/-- C10 witness: a call with outputs and no referrers inside a workflow
without an outputs section gets no diagnostic; the same call under a
workflow with an (even empty) outputs section gets flagged. -/
theorem unusedCall_requires_outputs_section_witness :
    UnusedCall_call
      (CallNode.mk 4 (SourcePosition.mk "a.wdl" 3 3 3 9) "frobnicate"
        (CalleeRef.mk false 9) [] ["out"])
      [AncestorNode.otherA, AncestorNode.workflowA "wf" Option.none] [] = some [] :=
  (unusedCall_requires_outputs_section
      (CallNode.mk 4 (SourcePosition.mk "a.wdl" 3 3 3 9) "frobnicate"
        (CalleeRef.mk false 9) [] ["out"])
      [AncestorNode.otherA, AncestorNode.workflowA "wf" Option.none] [] "wf"
      Option.none rfl).1 rfl

/-- Helper: `unwrapGather` never returns a Gather indirection. -/
theorem unwrapGather_ne_gather (r : Referee) :
    ∀ inner, unwrapGather r ≠ Referee.gatherRef inner := by
  induction r with
  | declRef n p => intro inner h; exact absurd h (by simp [unwrapGather])
  | callRef n p => intro inner h; exact absurd h (by simp [unwrapGather])
  | otherRef => intro inner h; exact absurd h (by simp [unwrapGather])
  | gatherRef i ih => intro inner h; exact ih inner (by simpa [unwrapGather] using h)

/-- C7: `ForwardReference.expr` attaches a diagnostic if and only if the
expression is an identifier whose referee, after unwrapping Gather
indirections, is a Decl or Call positioned later in source (greater line,
or equal line and greater column); it never attaches more than one; and on
the scenario `Int y = x` at line 1 with `Int x = 1` at line 2, it attaches
exactly one diagnostic, to `y`, whose message contains "precedes its
declaration". -/
theorem forwardReference_iff_later_referent :
    (∀ (pn : Nat) (e : Expr),
      ForwardReference_expr pn e ≠ [] ↔
        ∃ name ns r, e.kind = ExprKind.ident name ns r ∧
          ((∃ n p, unwrapGather r = Referee.declRef n p ∧ refPosLater p e.pos = true) ∨
           (∃ n p, unwrapGather r = Referee.callRef n p ∧ refPosLater p e.pos = true))) ∧
    (∀ (pn : Nat) (e : Expr), (ForwardReference_expr pn e).length ≤ 1) ∧
    (ForwardReference_expr 5
        (Expr.mk 10 (SourcePosition.mk "a.wdl" 1 9 1 9) WDLType.int
          (ExprKind.ident "x" []
            (Referee.declRef 3 (SourcePosition.mk "a.wdl" 2 1 2 9))) []) =
      [(5, Diagnostic.mk (SourcePosition.mk "a.wdl" 1 9 1 9) "ForwardReference"
        "reference to x precedes its declaration")] ∧
      ∃ a b, "reference to x precedes its declaration" =
        a ++ "precedes its declaration" ++ b) := by
  refine ⟨fun pn e => ?_, fun pn e => ?_, by decide, "reference to x ", "", by decide⟩
  · cases e with
    | mk nid pos ty kind children =>
      cases kind with
      | other => simp [ForwardReference_expr, Expr.kind]
      | ident name ns r =>
        simp only [ForwardReference_expr, Expr.kind, Expr.pos]
        cases hu : unwrapGather r with
        | declRef n p =>
          by_cases hlater : refPosLater p pos = true
          · simp only [hlater, if_true]
            constructor
            · intro _
              exact ⟨name, ns, r, rfl, Or.inl ⟨n, p, hu, hlater⟩⟩
            · intro _
              simp
          · simp only [Bool.not_eq_true] at hlater
            simp only [hlater, Bool.false_eq_true, if_false]
            constructor
            · intro h
              exact absurd rfl h
            · rintro ⟨name2, ns2, r2, hk, hcase⟩
              injection hk with h1 h2 h3
              subst h3
              rcases hcase with ⟨n2, p2, hu2, hl2⟩ | ⟨n2, p2, hu2, hl2⟩ <;>
                rw [hu] at hu2
              · injection hu2 with e1 e2
                subst e2
                simp [hlater] at hl2
              · exact absurd hu2 (by simp)
        | callRef n p =>
          by_cases hlater : refPosLater p pos = true
          · simp only [hlater, if_true]
            constructor
            · intro _
              exact ⟨name, ns, r, rfl, Or.inr ⟨n, p, hu, hlater⟩⟩
            · intro _
              simp
          · simp only [Bool.not_eq_true] at hlater
            simp only [hlater, Bool.false_eq_true, if_false]
            constructor
            · intro h
              exact absurd rfl h
            · rintro ⟨name2, ns2, r2, hk, hcase⟩
              injection hk with h1 h2 h3
              subst h3
              rcases hcase with ⟨n2, p2, hu2, hl2⟩ | ⟨n2, p2, hu2, hl2⟩ <;>
                rw [hu] at hu2
              · exact absurd hu2 (by simp)
              · injection hu2 with e1 e2
                subst e2
                simp [hlater] at hl2
        | gatherRef inner =>
          exact absurd hu (unwrapGather_ne_gather r inner)
        | otherRef =>
          constructor
          · intro h
            exact absurd rfl h
          · rintro ⟨name2, ns2, r2, hk, hcase⟩
            injection hk with h1 h2 h3
            subst h3
            rcases hcase with ⟨n2, p2, hu2, -⟩ | ⟨n2, p2, hu2, -⟩ <;>
              rw [hu] at hu2 <;> exact absurd hu2 (by simp)
  · cases e with
    | mk nid pos ty kind children =>
      cases kind with
      | other => simp [ForwardReference_expr, Expr.kind]
      | ident name ns r =>
        simp only [ForwardReference_expr, Expr.kind]
        cases hu : unwrapGather r with
        | declRef n p => split <;> (split <;> simp)
        | callRef n p => split <;> (split <;> simp)
        | gatherRef inner => exact absurd hu (unwrapGather_ne_gather r inner)
        | otherRef => simp

/-- C6 counterexample: an `Int`-typed declaration named `x.bai` with no
referrers and not an output still receives the UnusedDeclaration
diagnostic — the index-file-suffix heuristic only suppresses File and
Array[File] typed declarations, so the rename does not suppress it as the
claim asserts. -/
theorem unusedDeclaration_int_bai_still_flagged :
    UnusedDeclaration_decl
        (Decl.mk 7 (SourcePosition.mk "a.wdl" 3 3 3 16) WDLType.int "x.bai"
          (some (Expr.mk 8 (SourcePosition.mk "a.wdl" 3 15 3 16) WDLType.int
            ExprKind.other [])))
        (DeclParent.workflowP Option.none) [] =
      [Diagnostic.mk (SourcePosition.mk "a.wdl" 3 3 3 16) "UnusedDeclaration"
        "nothing references Int x.bai"] ∧
    ¬ (UnusedDeclaration_decl
        (Decl.mk 7 (SourcePosition.mk "a.wdl" 3 3 3 16) WDLType.int "x.bai"
          (some (Expr.mk 8 (SourcePosition.mk "a.wdl" 3 15 3 16) WDLType.int
            ExprKind.other [])))
        (DeclParent.workflowP Option.none) [] = []) := by
  constructor
  · decide
  · decide

/-- C6 (amended): an unreferenced non-output `Int x = 5` receives exactly
one UnusedDeclaration diagnostic naming `x`; renaming suppresses the
diagnostic only when the declared type is File (or Array[File]) — a
File-typed `x.bai` is suppressed while the Int-typed `x.bai` keeps its
single diagnostic. -/
theorem unusedDeclaration_scenario_amended :
    UnusedDeclaration_decl
        (Decl.mk 7 (SourcePosition.mk "a.wdl" 3 3 3 12) WDLType.int "x"
          (some (Expr.mk 8 (SourcePosition.mk "a.wdl" 3 11 3 12) WDLType.int
            ExprKind.other [])))
        (DeclParent.workflowP Option.none) [] =
      [Diagnostic.mk (SourcePosition.mk "a.wdl" 3 3 3 12) "UnusedDeclaration"
        "nothing references Int x"] ∧
    UnusedDeclaration_decl
        (Decl.mk 7 (SourcePosition.mk "a.wdl" 3 3 3 16) WDLType.file "x.bai"
          (some (Expr.mk 8 (SourcePosition.mk "a.wdl" 3 15 3 16) WDLType.string
            ExprKind.other [])))
        (DeclParent.workflowP Option.none) [] = [] ∧
    UnusedDeclaration_decl
        (Decl.mk 7 (SourcePosition.mk "a.wdl" 3 3 3 16) WDLType.int "x.bai"
          (some (Expr.mk 8 (SourcePosition.mk "a.wdl" 3 15 3 16) WDLType.int
            ExprKind.other [])))
        (DeclParent.workflowP Option.none) [] =
      [Diagnostic.mk (SourcePosition.mk "a.wdl" 3 3 3 16) "UnusedDeclaration"
        "nothing references Int x.bai"] := by
  refine ⟨by decide, by decide, by decide⟩

/-- Helper for C9: the scan attaches at most one diagnostic. -/
theorem mixedIndentation_scan_length_le_one (fn : String) (cl : Nat) :
    ∀ (ls : List (List Char)) (ofs : Nat),
      (MixedIndentation_scan fn cl ofs ls).length ≤ 1 := by
  intro ls
  induction ls with
  | nil => intro ofs; simp [MixedIndentation_scan]
  | cons line rest ih =>
    intro ofs
    unfold MixedIndentation_scan
    split
    · simp
    · exact ih (ofs + 1)

/-- Helper for C9: when line `j` (0-based) is the first line of `ls` whose
indentation mixes spaces and tabs, the scan reports exactly that line. -/
theorem mixedIndentation_scan_first (fn : String) (cl : Nat) :
    ∀ (ls : List (List Char)) (ofs j : Nat), j < ls.length →
      mixedLine (ls.getD j []) = true →
      (∀ i, i < j → mixedLine (ls.getD i []) = false) →
      MixedIndentation_scan fn cl ofs ls =
        [Diagnostic.mk
          (SourcePosition.mk fn (cl + (ofs + j)) 1 (cl + (ofs + j))
            (ls.getD j []).length)
          "MixedIndentation" "command indented with both spaces & tabs"] := by
  intro ls
  induction ls with
  | nil => intro ofs j hj; simp at hj
  | cons line rest ih =>
    intro ofs j hj hmix hfirst
    cases j with
    | zero =>
      simp only [List.getD_cons_zero] at hmix
      unfold MixedIndentation_scan
      simp [hmix]
    | succ j2 =>
      have hline : mixedLine line = false := by
        have := hfirst 0 (Nat.succ_pos j2)
        simpa using this
      unfold MixedIndentation_scan
      simp only [hline, Bool.false_eq_true, if_false]
      have := ih (ofs + 1) j2 (by simpa using Nat.lt_of_succ_lt_succ hj)
        (by simpa using hmix)
        (fun i hi => by
          have := hfirst (i + 1) (Nat.succ_lt_succ hi)
          simpa using this)
      rw [this]
      have harr : cl + (ofs + 1 + j2) = cl + (ofs + (j2 + 1)) := by omega
      rw [harr]
      simp

/-- Helper for C9: with no offending line the scan reports nothing. -/
theorem mixedIndentation_scan_none (fn : String) (cl : Nat) :
    ∀ (ls : List (List Char)) (ofs : Nat),
      (∀ i, i < ls.length → mixedLine (ls.getD i []) = false) →
      MixedIndentation_scan fn cl ofs ls = [] := by
  intro ls
  induction ls with
  | nil => intro ofs _; simp [MixedIndentation_scan]
  | cons line rest ih =>
    intro ofs hnone
    have hline : mixedLine line = false := by
      have := hnone 0 (Nat.succ_pos _)
      simpa using this
    unfold MixedIndentation_scan
    simp only [hline, Bool.false_eq_true, if_false]
    exact ih (ofs + 1) (fun i hi => by
      have := hnone (i + 1) (Nat.succ_lt_succ hi)
      simpa using this)

/-- C9: `MixedIndentation.task` attaches at most one diagnostic per task;
when some command line (placeholders replaced by a `$` sentinel, text
split on newlines) has leading whitespace containing both a space and a
tab, it attaches exactly one diagnostic positioned at the first such line
(line `command.pos.line + offset`, columns 1 through the line's length),
and later offending lines are not reported; with no such line it attaches
nothing. -/
theorem mixedIndentation_first_offending_line (t : Task) :
    (MixedIndentation_task t).length ≤ 1 ∧
    (∀ j, j < (commandLines t.command.parts).length →
      mixedLine ((commandLines t.command.parts).getD j []) = true →
      (∀ i, i < j → mixedLine ((commandLines t.command.parts).getD i []) = false) →
      MixedIndentation_task t =
        [Diagnostic.mk
          (SourcePosition.mk t.command.pos.filename (t.command.pos.line + j) 1
            (t.command.pos.line + j) ((commandLines t.command.parts).getD j []).length)
          "MixedIndentation" "command indented with both spaces & tabs"]) ∧
    ((∀ i, i < (commandLines t.command.parts).length →
        mixedLine ((commandLines t.command.parts).getD i []) = false) →
      MixedIndentation_task t = []) := by
  refine ⟨mixedIndentation_scan_length_le_one _ _ _ 0, fun j hj hmix hfirst => ?_,
    fun hnone => ?_⟩
  · have := mixedIndentation_scan_first t.command.pos.filename t.command.pos.line
      (commandLines t.command.parts) 0 j hj hmix hfirst
    simpa [MixedIndentation_task] using this
  · exact mixedIndentation_scan_none _ _ _ 0 hnone

/-- C9 witness: a command whose second line indents with a space followed
by a tab gets exactly one diagnostic at that line, even though the third
line offends as well. -/
theorem mixedIndentation_first_offending_line_witness :
    MixedIndentation_task
        (Task.mk 1 (SourcePosition.mk "a.wdl" 1 1 9 1) "tsk" Option.none []
          (TaskCommand.mk 2 (SourcePosition.mk "a.wdl" 4 5 8 3)
            [CmdPart.str "echo hi\n \tls\n\t rm"]) [] [] []) =
      [Diagnostic.mk (SourcePosition.mk "a.wdl" 5 1 5 4)
        "MixedIndentation" "command indented with both spaces & tabs"] := by
  have h := (mixedIndentation_first_offending_line
    (Task.mk 1 (SourcePosition.mk "a.wdl" 1 1 9 1) "tsk" Option.none []
      (TaskCommand.mk 2 (SourcePosition.mk "a.wdl" 4 5 8 3)
        [CmdPart.str "echo hi\n \tls\n\t rm"]) [] [] [])).2.1 1
    (by decide) (by decide)
    (fun i hi => by
      interval_cases i
      decide)
  simpa using h

/-- C5 counterexample: with the checker available, exiting with code 0 and
empty output, and a JSON parser that (like any real one) fails on the
empty string, `CommandShellCheck.task` attaches zero diagnostics — not the
one degraded-service diagnostic the claim requires on a JSON parse
failure: the source only parses under `if shellcheck_items:`, which is
false for empty output. -/
theorem commandShellCheck_empty_output_no_diag :
    (CommandShellCheck_task
        (ShellCheckEnv.mk true (fun s => (0, s)) (fun _ => (0, ""))
          (fun _ => Option.none))
        (Task.mk 1 (SourcePosition.mk "a.wdl" 1 1 5 1) "tsk" Option.none []
          (TaskCommand.mk 2 (SourcePosition.mk "a.wdl" 2 5 4 3)
            [CmdPart.str "echo hi"]) [] [] [])).1 = [] ∧
    (ShellCheckEnv.mk true (fun s => (0, s)) (fun _ => (0, ""))
        (fun _ => Option.none)).parseJSON "" = (Option.none : Option (List SCItem)) ∧
    (ShellCheckEnv.mk true (fun s => (0, s)) (fun _ => (0, ""))
        (fun _ => Option.none)).runShellcheck "echo hi" = (0, "") ∧
    ¬ ((CommandShellCheck_task
        (ShellCheckEnv.mk true (fun s => (0, s)) (fun _ => (0, ""))
          (fun _ => Option.none))
        (Task.mk 1 (SourcePosition.mk "a.wdl" 1 1 5 1) "tsk" Option.none []
          (TaskCommand.mk 2 (SourcePosition.mk "a.wdl" 2 5 4 3)
            [CmdPart.str "echo hi"]) [] [] [])).1.length = 1) :=
  ⟨rfl, rfl, rfl, by decide⟩

/-- C5 (amended): `CommandShellCheck`'s external-tool failures are
recovered locally.  If the checker binary is absent the rule attaches zero
diagnostics and spawns no subprocess; otherwise it spawns exactly one
subprocess per task, and: on an exit code other than 0 and 1 it attaches
exactly the one diagnostic naming the failure and suggesting
upgrade-or-disable; on exit code 0 or 1 with nonempty output it parses the
output, attaching the remapped findings on success and exactly the one
JSON-failure diagnostic on parse failure; on exit code 0 or 1 with empty
output it attaches nothing. -/
theorem commandShellCheck_failure_recovery (env : ShellCheckEnv) (t : Task) :
    (env.available = false → CommandShellCheck_task env t = ([], 0)) ∧
    (env.available = true →
      (CommandShellCheck_task env t).2 = 1 ∧
      (∀ code out,
        env.runShellcheck (env.strip_leading_whitespace (shellcheckScript t)).2 =
          (code, out) →
        ((code ≠ 0 ∧ code ≠ 1) →
          (CommandShellCheck_task env t).1 = [shellcheckFailDiag t]) ∧
        ((code = 0 ∨ code = 1) → out ≠ "" → ∀ items,
          env.parseJSON out = some items →
          (CommandShellCheck_task env t).1 =
            items.map (shellcheckRemap t (env.strip_leading_whitespace (shellcheckScript t)).1)) ∧
        ((code = 0 ∨ code = 1) → out ≠ "" → env.parseJSON out = Option.none →
          (CommandShellCheck_task env t).1 = [shellcheckJsonDiag t]) ∧
        ((code = 0 ∨ code = 1) → out = "" →
          (CommandShellCheck_task env t).1 = []))) := by
  constructor
  · intro hne
    unfold CommandShellCheck_task
    simp [hne]
  · intro ha
    have hout : ∀ (s : String), s ≠ "" → s.data.isEmpty = false := by
      intro s hs
      cases hdata : s.data with
      | nil =>
        exact absurd (by cases s; simp_all) hs
      | cons c cs => simp [hdata]
    constructor
    · unfold CommandShellCheck_task
      simp only [ha, if_true]
      split <;> first | rfl | (split <;> first | rfl | (split <;> rfl))
    · intro code out hrun
      refine ⟨fun hcode => ?_, fun hcode hne items hparse => ?_,
        fun hcode hne hparse => ?_, fun hcode hempty => ?_⟩
      · unfold CommandShellCheck_task
        simp only [ha, if_true, hrun]
        have h0 : (code == 0 || code == 1) = false := by
          simp [hcode.1, hcode.2]
        simp [h0]
      · unfold CommandShellCheck_task
        simp only [ha, if_true, hrun]
        have h0 : (code == 0 || code == 1) = true := by
          rcases hcode with h | h <;> simp [h]
        simp [h0, hout out hne, hparse]
      · unfold CommandShellCheck_task
        simp only [ha, if_true, hrun]
        have h0 : (code == 0 || code == 1) = true := by
          rcases hcode with h | h <;> simp [h]
        simp [h0, hout out hne, hparse]
      · unfold CommandShellCheck_task
        simp only [ha, if_true, hrun]
        have h0 : (code == 0 || code == 1) = true := by
          rcases hcode with h | h <;> simp [h]
        simp [h0, hempty]

/-- C5 witness: with the checker absent the rule is a no-op (zero
diagnostics, zero subprocesses); with the checker present and failing with
exit code 2, the rule attaches exactly the degraded-service diagnostic. -/
theorem commandShellCheck_failure_recovery_witness :
    CommandShellCheck_task
        (ShellCheckEnv.mk false (fun s => (0, s)) (fun _ => (2, "boom"))
          (fun _ => Option.none))
        (Task.mk 1 (SourcePosition.mk "a.wdl" 1 1 5 1) "tsk" Option.none []
          (TaskCommand.mk 2 (SourcePosition.mk "a.wdl" 2 5 4 3)
            [CmdPart.str "echo hi"]) [] [] []) = ([], 0) ∧
    (CommandShellCheck_task
        (ShellCheckEnv.mk true (fun s => (0, s)) (fun _ => (2, "boom"))
          (fun _ => Option.none))
        (Task.mk 1 (SourcePosition.mk "a.wdl" 1 1 5 1) "tsk" Option.none []
          (TaskCommand.mk 2 (SourcePosition.mk "a.wdl" 2 5 4 3)
            [CmdPart.str "echo hi"]) [] [] [])).1 =
      [shellcheckFailDiag
        (Task.mk 1 (SourcePosition.mk "a.wdl" 1 1 5 1) "tsk" Option.none []
          (TaskCommand.mk 2 (SourcePosition.mk "a.wdl" 2 5 4 3)
            [CmdPart.str "echo hi"]) [] [] [])] :=
  ⟨(commandShellCheck_failure_recovery
      (ShellCheckEnv.mk false (fun s => (0, s)) (fun _ => (2, "boom"))
        (fun _ => Option.none))
      (Task.mk 1 (SourcePosition.mk "a.wdl" 1 1 5 1) "tsk" Option.none []
        (TaskCommand.mk 2 (SourcePosition.mk "a.wdl" 2 5 4 3)
          [CmdPart.str "echo hi"]) [] [] [])).1 rfl,
   (((commandShellCheck_failure_recovery
      (ShellCheckEnv.mk true (fun s => (0, s)) (fun _ => (2, "boom"))
        (fun _ => Option.none))
      (Task.mk 1 (SourcePosition.mk "a.wdl" 1 1 5 1) "tsk" Option.none []
        (TaskCommand.mk 2 (SourcePosition.mk "a.wdl" 2 5 4 3)
          [CmdPart.str "echo hi"]) [] [] [])).2 rfl).2 2 "boom" rfl).1
      ⟨by decide, by decide⟩⟩

/-! Helper lemmas for C3: the collector equals the pre-order node
enumeration flat-mapped through the per-node lint lists, layer by layer. -/

mutual
theorem clExpr_eq_pre (L : LintMap) (e : Expr) :
    clExpr L e = (preExpr e).flatMap L := by
  cases e with
  | mk nid p t k children =>
    rw [clExpr, preExpr, clExprList_eq_pre L children]
    simp

theorem clExprList_eq_pre (L : LintMap) (es : List Expr) :
    clExprList L es = (preExprList es).flatMap L := by
  cases es with
  | nil => rw [clExprList, preExprList]; rfl
  | cons e rest =>
    rw [clExprList, preExprList, clExpr_eq_pre L e, clExprList_eq_pre L rest]
    simp
end

theorem clDecl_eq_pre (L : LintMap) (d : Decl) :
    clDecl L d = (preDecl d).flatMap L := by
  rw [clDecl, preDecl]
  cases hde : d.expr with
  | none => simp
  | some e => simp only [clExpr_eq_pre L e]; simp

theorem clDeclList_eq_pre (L : LintMap) (ds : List Decl) :
    clDeclList L ds = (preDeclList ds).flatMap L := by
  induction ds with
  | nil => rw [clDeclList, preDeclList]; rfl
  | cons d rest ih =>
    rw [clDeclList, preDeclList, clDecl_eq_pre L d, ih]
    simp

mutual
theorem clElt_eq_pre (L : LintMap) (e : WFElt) :
    clElt L e = (preElt e).flatMap L := by
  cases e with
  | decl d => rw [clElt, preElt]; exact clDecl_eq_pre L d
  | call c => rw [clElt, preElt]; simp
  | scatter nid p v scExpr elements =>
    rw [clElt, preElt, clExpr_eq_pre L scExpr, clEltList_eq_pre L elements]
    simp
  | conditional nid p condExpr elements =>
    rw [clElt, preElt, clExpr_eq_pre L condExpr, clEltList_eq_pre L elements]
    simp

theorem clEltList_eq_pre (L : LintMap) (es : List WFElt) :
    clEltList L es = (preEltList es).flatMap L := by
  cases es with
  | nil => rw [clEltList, preEltList]; rfl
  | cons e rest =>
    rw [clEltList, preEltList, clElt_eq_pre L e, clEltList_eq_pre L rest]
    simp
end

theorem flatten_map_eq_pre (L : LintMap) (rt : List (String × Expr)) :
    ((rt.map (fun kv => clExpr L kv.2)).flatten) =
      ((rt.map (fun kv => preExpr kv.2)).flatten).flatMap L := by
  induction rt with
  | nil => simp
  | cons kv rest ih =>
    simp only [List.map_cons, List.flatten_cons, clExpr_eq_pre L kv.2, ih]
    simp

theorem clTask_eq_pre (L : LintMap) (t : Task) :
    clTask L t = (preTask t).flatMap L := by
  rw [clTask, preTask, clDeclList_eq_pre, clDeclList_eq_pre, clExpr_eq_pre,
    flatten_map_eq_pre, clDeclList_eq_pre]
  simp

theorem clWorkflow_eq_pre (L : LintMap) (w : Workflow) :
    clWorkflow L w = (preWorkflow w).flatMap L := by
  rw [clWorkflow, preWorkflow, clDeclList_eq_pre, clEltList_eq_pre, clDeclList_eq_pre]
  simp

theorem structs_map_eq_pre (L : LintMap) (structs : List StructTypeDef) :
    ((structs.map (fun s => L s.nid)).flatten) =
      (structs.map (fun s => s.nid)).flatMap L := by
  induction structs with
  | nil => simp
  | cons s rest ih => simp [ih]

theorem tasks_map_eq_pre (L : LintMap) (tasks : List Task) :
    ((tasks.map (clTask L)).flatten) = ((tasks.map preTask).flatten).flatMap L := by
  induction tasks with
  | nil => simp
  | cons t rest ih =>
    simp only [List.map_cons, List.flatten_cons, clTask_eq_pre L t, ih]
    simp

mutual
theorem clDoc_eq_pre (L : LintMap) (d : Document) :
    clDoc L d = (preDoc d).flatMap L := by
  cases d with
  | mk nid p imports structs tasks workflow =>
    rw [clDoc.eq_def, preDoc.eq_def]
    simp only []
    rw [clImports_eq_pre L imports]
    cases workflow with
    | none =>
      simp [structs_map_eq_pre L structs, tasks_map_eq_pre L tasks]
    | some w =>
      simp [structs_map_eq_pre L structs, tasks_map_eq_pre L tasks,
        clWorkflow_eq_pre L w]

theorem clImports_eq_pre (L : LintMap) (l : List (String × Document)) :
    clImports L l = (preImports l).flatMap L := by
  cases l with
  | nil => rw [clImports, preImports]; rfl
  | cons kv rest =>
    cases kv with
    | mk ns d =>
      rw [clImports, preImports, clDoc_eq_pre L d, clImports_eq_pre L rest]
      simp
end

/-- Helper for C3: a flat-mapped list as a multiset is the sum of the
per-element multisets. -/
theorem flatMap_multiset (L : LintMap) (l : List Nat) :
    (Multiset.ofList (l.flatMap L)) =
      ((l.map (fun n => Multiset.ofList (L n))).sum) := by
  induction l with
  | nil => simp
  | cons n rest ih =>
    simp only [List.flatMap_cons, List.map_cons, List.sum_cons, ← ih]
    exact Multiset.coe_add (L n) (rest.flatMap L)

/-- C3: for every lint annotation state and document, `collect` returns
exactly the pre-order flattening of the per-node diagnostic lists: each
visited node's own diagnostics appear contiguously, in their original
order, before everything attached deeper in its subtree; consequently the
output's multiset is the sum (union) of all nodes' diagnostic lists. -/
theorem collect_preorder_flattening (L : LintMap) (d : Document) :
    collect L d = (preDoc d).flatMap L ∧
    (Multiset.ofList (collect L d)) =
      ((preDoc d).map (fun n => Multiset.ofList (L n))).sum := by
  have h := clDoc_eq_pre L d
  refine ⟨h, ?_⟩
  rw [collect, h, flatMap_multiset]

/-! Helper lemmas for C2: how `plookup` interacts with single assignments
and with the assignment loops, frame lemmas (a traversal only writes
identities inside its subtree), and coverage lemmas (inside the subtree
every identity other than the subtree root ends up with a non-null
parent). -/

theorem plookup_pset (st : PMap) (k n : Nat) (v : Option Nat) :
    plookup (pset st k v) n = if k = n then some v else plookup st n := by
  by_cases h : k = n <;> simp [pset, plookup, List.find?_cons, h]

theorem foldl_pset_lookup {α : Type} (key : α → Nat) (v : Option Nat) :
    ∀ (l : List α) (st : PMap) (n : Nat),
      plookup (l.foldl (fun acc x => pset acc (key x) v) st) n =
        if n ∈ l.map key then some v else plookup st n := by
  intro l
  induction l with
  | nil => intro st n; simp
  | cons x rest ih =>
    intro st n
    simp only [List.foldl_cons, List.map_cons, List.mem_cons]
    rw [ih (pset st (key x) v) n]
    by_cases hr : n ∈ rest.map key
    · simp [hr]
    · rw [if_neg hr, plookup_pset]
      by_cases hx : key x = n
      · simp [hx]
      · have hcond : ¬(n = key x ∨ n ∈ rest.map key) := by
          rintro (h | h)
          · exact hx h.symm
          · exact hr h
        rw [if_neg hx, if_neg hcond]

mutual
theorem spExpr_frame (stack : List Nat) (st : PMap) (e : Expr) (k : Nat)
    (hk : k ∉ exprIds e) : plookup (spExpr stack st e) k = plookup st k := by
  cases e with
  | mk nid p t kd children =>
    rw [spExpr]
    rw [exprIds] at hk
    simp only [List.mem_cons, not_or] at hk
    rw [plookup_pset, if_neg (fun h => hk.1 h.symm), spExprList_frame stack st children k hk.2]

theorem spExprList_frame (stack : List Nat) (st : PMap) (es : List Expr) (k : Nat)
    (hk : k ∉ exprListIds es) : plookup (spExprList stack st es) k = plookup st k := by
  cases es with
  | nil => rw [spExprList]
  | cons e rest =>
    rw [spExprList]
    rw [exprListIds] at hk
    simp only [List.mem_append, not_or] at hk
    rw [spExprList_frame stack _ rest k hk.2, spExpr_frame stack st e k hk.1]
end

theorem spDecl_frame (stack : List Nat) (st : PMap) (d : Decl) (k : Nat)
    (hk : k ∉ declIds d) : plookup (spDecl stack st d) k = plookup st k := by
  rw [spDecl]
  rw [declIds] at hk
  simp only [List.mem_cons, not_or] at hk
  cases hde : d.expr with
  | none => rfl
  | some e =>
    rw [hde] at hk
    exact spExpr_frame _ st e k hk.2

theorem spDeclList_frame (stack : List Nat) : ∀ (ds : List Decl) (st : PMap) (k : Nat),
    k ∉ declListIds ds → plookup (spDeclList stack st ds) k = plookup st k := by
  intro ds
  induction ds with
  | nil => intro st k _; rw [spDeclList]; rfl
  | cons d rest ih =>
    intro st k hk
    rw [declListIds] at hk
    simp only [List.mem_append, not_or] at hk
    rw [spDeclList] at *
    simp only [List.foldl_cons]
    have h1 : spDecl stack st d = (fun acc d2 => spDecl stack acc d2) st d := rfl
    rw [show rest.foldl (fun acc d2 => spDecl stack acc d2) (spDecl stack st d) =
        spDeclList stack (spDecl stack st d) rest from rfl]
    rw [ih (spDecl stack st d) k hk.2, spDecl_frame stack st d k hk.1]

theorem eltIds_mem_nid (e : WFElt) : WFElt.nid e ∈ eltIds e := by
  cases e with
  | decl d => rw [eltIds, WFElt.nid, declIds]; exact List.mem_cons_self _ _
  | call c => rw [eltIds, WFElt.nid]; exact List.mem_cons_self _ _
  | scatter nid p v scExpr elements =>
    rw [eltIds, WFElt.nid]; exact List.mem_cons_self _ _
  | conditional nid p condExpr elements =>
    rw [eltIds, WFElt.nid]; exact List.mem_cons_self _ _

theorem eltListIds_mem_of_nid {k : Nat} (e2 : WFElt) :
    ∀ (es : List WFElt), e2 ∈ es → WFElt.nid e2 = k → k ∈ eltListIds es := by
  intro es
  induction es with
  | nil => intro he2 _; exact absurd he2 (List.not_mem_nil e2)
  | cons a rest ih =>
    intro he2 hke
    rw [eltListIds]
    rcases List.mem_cons.mp he2 with h | h
    · subst h
      exact List.mem_append_left _ (hke ▸ eltIds_mem_nid e2)
    · exact List.mem_append_right _ (ih h hke)

mutual
theorem spElt_frame (stack : List Nat) (st : PMap) (e : WFElt) (k : Nat)
    (hk : k ∉ eltIds e) : plookup (spElt stack st e) k = plookup st k := by
  cases e with
  | decl d =>
    rw [spElt]
    exact spDecl_frame stack st d k (by rw [eltIds] at hk; exact hk)
  | call c => rw [spElt]
  | scatter nid p v scExpr elements =>
    rw [spElt]
    rw [eltIds] at hk
    simp only [List.mem_cons, List.mem_append, not_or] at hk
    rw [show spAssignEltRoots (pset (spEltList (nid :: stack)
        (spExpr (nid :: stack) st scExpr) elements) nid Option.none) elements nid =
      (elements.foldl (fun acc e2 => pset acc e2.nid (some nid))
        (pset (spEltList (nid :: stack) (spExpr (nid :: stack) st scExpr) elements)
          nid Option.none)) from rfl]
    rw [foldl_pset_lookup]
    have hroots : k ∉ elements.map WFElt.nid := by
      intro hmem
      rcases List.mem_map.mp hmem with ⟨e2, he2, hke⟩
      exact hk.2.2 (eltListIds_mem_of_nid e2 elements he2 hke)
    rw [if_neg hroots, plookup_pset, if_neg (fun h => hk.1 h.symm),
      spEltList_frame _ _ elements k hk.2.2, spExpr_frame _ st scExpr k hk.2.1]
  | conditional nid p condExpr elements =>
    rw [spElt]
    rw [eltIds] at hk
    simp only [List.mem_cons, List.mem_append, not_or] at hk
    rw [show spAssignEltRoots (pset (spEltList (nid :: stack)
        (spExpr (nid :: stack) st condExpr) elements) nid Option.none) elements nid =
      (elements.foldl (fun acc e2 => pset acc e2.nid (some nid))
        (pset (spEltList (nid :: stack) (spExpr (nid :: stack) st condExpr) elements)
          nid Option.none)) from rfl]
    rw [foldl_pset_lookup]
    have hroots : k ∉ elements.map WFElt.nid := by
      intro hmem
      rcases List.mem_map.mp hmem with ⟨e2, he2, hke⟩
      exact hk.2.2 (eltListIds_mem_of_nid e2 elements he2 hke)
    rw [if_neg hroots, plookup_pset, if_neg (fun h => hk.1 h.symm),
      spEltList_frame _ _ elements k hk.2.2, spExpr_frame _ st condExpr k hk.2.1]

theorem spEltList_frame (stack : List Nat) (st : PMap) (es : List WFElt) (k : Nat)
    (hk : k ∉ eltListIds es) : plookup (spEltList stack st es) k = plookup st k := by
  cases es with
  | nil => rw [spEltList]
  | cons e rest =>
    rw [spEltList]
    rw [eltListIds] at hk
    simp only [List.mem_append, not_or] at hk
    rw [spEltList_frame stack _ rest k hk.2, spElt_frame stack st e k hk.1]

end

theorem spAssignDeclRoots_lookup (st : PMap) (ds : List Decl) (p n : Nat) :
    plookup (spAssignDeclRoots st ds p) n =
      if n ∈ ds.map Decl.nid then some (some p) else plookup st n :=
  foldl_pset_lookup Decl.nid (some p) ds st n

theorem spAssignEltRoots_lookup (st : PMap) (elts : List WFElt) (p n : Nat) :
    plookup (spAssignEltRoots st elts p) n =
      if n ∈ elts.map WFElt.nid then some (some p) else plookup st n :=
  foldl_pset_lookup WFElt.nid (some p) elts st n

theorem declNid_mem_declListIds (d : Decl) :
    ∀ (ds : List Decl), d ∈ ds → Decl.nid d ∈ declListIds ds := by
  intro ds
  induction ds with
  | nil => intro h; exact absurd h (List.not_mem_nil d)
  | cons a rest ih =>
    intro h
    rw [declListIds]
    rcases List.mem_cons.mp h with h2 | h2
    · subst h2
      exact List.mem_append_left _ (by rw [declIds]; exact List.mem_cons_self _ _)
    · exact List.mem_append_right _ (ih h2)

theorem runtime_fold_frame (stk : List Nat) :
    ∀ (rt : List (String × Expr)) (st : PMap) (k : Nat),
      k ∉ (rt.map (fun kv => exprIds kv.2)).flatten →
      plookup (rt.foldl (fun acc kv => spExpr stk acc kv.2) st) k = plookup st k := by
  intro rt
  induction rt with
  | nil => intro st k _; rfl
  | cons kv rest ih =>
    intro st k hk
    simp only [List.map_cons, List.flatten_cons, List.mem_append, not_or] at hk
    simp only [List.foldl_cons]
    rw [ih _ k hk.2, spExpr_frame stk st kv.2 k hk.1]

theorem spTask_frame (stack : List Nat) (st : PMap) (t : Task) (k : Nat)
    (hk : k ∉ taskIds t) : plookup (spTask stack st t) k = plookup st k := by
  rw [taskIds] at hk
  simp only [List.mem_cons, List.mem_append, not_or] at hk
  obtain ⟨h0, ⟨⟨⟨⟨h1, h2⟩, h3⟩, h4⟩, h5⟩⟩ := hk
  simp only [spTask]
  rw [spAssignDeclRoots_lookup,
    if_neg (fun hm => h5 (by
      rcases List.mem_map.mp hm with ⟨d2, hd2, hdk⟩
      exact hdk ▸ declNid_mem_declListIds d2 _ hd2)),
    spAssignDeclRoots_lookup,
    if_neg (fun hm => h2 (by
      rcases List.mem_map.mp hm with ⟨d2, hd2, hdk⟩
      exact hdk ▸ declNid_mem_declListIds d2 _ hd2)),
    spAssignDeclRoots_lookup,
    if_neg (fun hm => h1 (by
      rcases List.mem_map.mp hm with ⟨d2, hd2, hdk⟩
      exact hdk ▸ declNid_mem_declListIds d2 _ hd2)),
    plookup_pset, if_neg (fun h => h0 h.symm),
    spDeclList_frame _ _ _ k h5,
    runtime_fold_frame _ _ _ k h4,
    spExpr_frame _ _ _ k h3,
    spDeclList_frame _ _ _ k h2,
    spDeclList_frame _ _ _ k h1]

theorem spWorkflow_frame (stack : List Nat) (st : PMap) (w : Workflow) (k : Nat)
    (hk : k ∉ wfIds w) : plookup (spWorkflow stack st w) k = plookup st k := by
  rw [wfIds] at hk
  simp only [List.mem_cons, List.mem_append, not_or] at hk
  obtain ⟨h0, ⟨⟨h1, h2⟩, h3⟩⟩ := hk
  simp only [spWorkflow]
  rw [spAssignDeclRoots_lookup,
    if_neg (fun hm => h3 (by
      rcases List.mem_map.mp hm with ⟨d2, hd2, hdk⟩
      exact hdk ▸ declNid_mem_declListIds d2 _ hd2)),
    spAssignEltRoots_lookup,
    if_neg (fun hm => h2 (by
      rcases List.mem_map.mp hm with ⟨e2, he2, hek⟩
      exact eltListIds_mem_of_nid e2 _ he2 hek)),
    spAssignDeclRoots_lookup,
    if_neg (fun hm => h1 (by
      rcases List.mem_map.mp hm with ⟨d2, hd2, hdk⟩
      exact hdk ▸ declNid_mem_declListIds d2 _ hd2)),
    plookup_pset, if_neg (fun h => h0 h.symm),
    spDeclList_frame _ _ _ k h3,
    spEltList_frame _ _ _ k h2,
    spDeclList_frame _ _ _ k h1]

theorem docIds_mem_nid (d : Document) : Document.nid d ∈ docIds d := by
  cases d with
  | mk nid p imports structs tasks workflow =>
    rw [docIds.eq_def, Document.nid]
    exact List.mem_cons_self _ _

theorem importsIds_mem_of_nid {k : Nat} :
    ∀ (l : List (String × Document)) (kv : String × Document), kv ∈ l →
      Document.nid kv.2 = k → k ∈ importsIds l := by
  intro l
  induction l with
  | nil => intro kv h _; exact absurd h (List.not_mem_nil kv)
  | cons a rest ih =>
    intro kv h hke
    rcases List.mem_cons.mp h with h2 | h2
    · subst h2
      cases kv with
      | mk ns d2 =>
        rw [importsIds]
        exact List.mem_append_left _ (hke ▸ docIds_mem_nid d2)
    · cases a with
      | mk ns d2 =>
        rw [importsIds]
        exact List.mem_append_right _ (ih kv h2 hke)

theorem taskNid_mem_flatten {k : Nat} :
    ∀ (ts : List Task) (t : Task), t ∈ ts → Task.nid t = k →
      k ∈ (ts.map taskIds).flatten := by
  intro ts
  induction ts with
  | nil => intro t h _; exact absurd h (List.not_mem_nil t)
  | cons a rest ih =>
    intro t h hke
    simp only [List.map_cons, List.flatten_cons, List.mem_append]
    rcases List.mem_cons.mp h with h2 | h2
    · subst h2
      exact Or.inl (by rw [taskIds]; exact hke ▸ List.mem_cons_self _ _)
    · exact Or.inr (ih t h2 hke)

theorem taskIds_sub_flatten {k : Nat} :
    ∀ (ts : List Task) (t : Task), t ∈ ts → k ∈ taskIds t →
      k ∈ (ts.map taskIds).flatten := by
  intro ts
  induction ts with
  | nil => intro t h _; exact absurd h (List.not_mem_nil t)
  | cons a rest ih =>
    intro t h hke
    simp only [List.map_cons, List.flatten_cons, List.mem_append]
    rcases List.mem_cons.mp h with h2 | h2
    · subst h2
      exact Or.inl hke
    · exact Or.inr (ih t h2 hke)

theorem tasks_fold_frame :
    ∀ (ts : List Task) (st : PMap) (k : Nat),
      k ∉ (ts.map taskIds).flatten →
      plookup (ts.foldl (fun acc t => spTask [] acc t) st) k = plookup st k := by
  intro ts
  induction ts with
  | nil => intro st k _; rfl
  | cons t rest ih =>
    intro st k hk
    simp only [List.map_cons, List.flatten_cons, List.mem_append, not_or] at hk
    simp only [List.foldl_cons]
    rw [ih _ k hk.2, spTask_frame [] st t k hk.1]

mutual
theorem spDocument_frame (st : PMap) (d : Document) (k : Nat)
    (hk : k ∉ docIds d) : plookup (spDocument st d) k = plookup st k := by
  cases d with
  | mk nid p imports structs tasks workflow =>
    rw [docIds.eq_def] at hk
    simp only [List.mem_cons, List.mem_append, not_or] at hk
    obtain ⟨h0, ⟨⟨⟨h1, h2⟩, h3⟩, h4⟩⟩ := hk
    rw [spDocument.eq_def]
    cases workflow with
    | none =>
      simp only []
      rw [foldl_pset_lookup,
        if_neg (fun hm => h3 (by
          rcases List.mem_map.mp hm with ⟨t2, ht2, htk⟩
          exact taskNid_mem_flatten _ t2 ht2 htk)),
        foldl_pset_lookup,
        if_neg (fun hm => h2 (by
          rcases List.mem_map.mp hm with ⟨s2, hs2, hsk⟩
          exact hsk ▸ List.mem_map_of_mem _ hs2)),
        foldl_pset_lookup,
        if_neg (fun hm => h1 (by
          rcases List.mem_map.mp hm with ⟨kv2, hkv2, hkk⟩
          exact importsIds_mem_of_nid _ kv2 hkv2 hkk)),
        plookup_pset, if_neg (fun h => h0 h.symm),
        tasks_fold_frame _ _ k h3,
        spImports_frame _ _ k h1]
    | some w =>
      simp only []
      simp only [] at h4
      rw [plookup_pset,
        if_neg (fun h => h4 (by rw [← h, wfIds.eq_def]; exact List.mem_cons_self _ _)),
        foldl_pset_lookup,
        if_neg (fun hm => h3 (by
          rcases List.mem_map.mp hm with ⟨t2, ht2, htk⟩
          exact taskNid_mem_flatten _ t2 ht2 htk)),
        foldl_pset_lookup,
        if_neg (fun hm => h2 (by
          rcases List.mem_map.mp hm with ⟨s2, hs2, hsk⟩
          exact hsk ▸ List.mem_map_of_mem _ hs2)),
        foldl_pset_lookup,
        if_neg (fun hm => h1 (by
          rcases List.mem_map.mp hm with ⟨kv2, hkv2, hkk⟩
          exact importsIds_mem_of_nid _ kv2 hkv2 hkk)),
        plookup_pset, if_neg (fun h => h0 h.symm),
        spWorkflow_frame _ _ _ k h4,
        tasks_fold_frame _ _ k h3,
        spImports_frame _ _ k h1]

theorem spImports_frame (st : PMap) (l : List (String × Document)) (k : Nat)
    (hk : k ∉ importsIds l) : plookup (spImports st l) k = plookup st k := by
  cases l with
  | nil => rw [spImports]
  | cons kv rest =>
    cases kv with
    | mk ns d2 =>
      rw [spImports]
      rw [importsIds] at hk
      simp only [List.mem_append, not_or] at hk
      rw [spImports_frame _ rest k hk.2, spDocument_frame st d2 k hk.1]
end

mutual
theorem spExpr_cover (hd : Nat) (tl : List Nat) (st : PMap) (e : Expr) (n : Nat)
    (hn : n ∈ exprIds e) :
    ∃ p2, plookup (spExpr (hd :: tl) st e) n = some (some p2) := by
  cases e with
  | mk nid p t kd children =>
    rw [spExpr]
    rw [exprIds] at hn
    rw [plookup_pset]
    by_cases hwn : nid = n
    · rw [if_pos hwn]
      exact ⟨hd, rfl⟩
    · rw [if_neg hwn]
      rcases List.mem_cons.mp hn with h | h
      · exact absurd h.symm hwn
      · exact spExprList_cover hd tl st children n h

theorem spExprList_cover (hd : Nat) (tl : List Nat) (st : PMap) (es : List Expr)
    (n : Nat) (hn : n ∈ exprListIds es) :
    ∃ p2, plookup (spExprList (hd :: tl) st es) n = some (some p2) := by
  cases es with
  | nil => rw [exprListIds] at hn; exact absurd hn (List.not_mem_nil n)
  | cons e rest =>
    rw [spExprList]
    rw [exprListIds] at hn
    rcases List.mem_append.mp hn with h | h
    · exact spExprList_preserve hd tl _ rest n (spExpr_cover hd tl st e n h)
    · exact spExprList_cover hd tl _ rest n h

theorem spExpr_preserve (hd : Nat) (tl : List Nat) (st : PMap) (e : Expr) (n : Nat)
    (hn : ∃ p2, plookup st n = some (some p2)) :
    ∃ p2, plookup (spExpr (hd :: tl) st e) n = some (some p2) := by
  cases e with
  | mk nid p t kd children =>
    rw [spExpr, plookup_pset]
    by_cases hwn : nid = n
    · rw [if_pos hwn]
      exact ⟨hd, rfl⟩
    · rw [if_neg hwn]
      exact spExprList_preserve hd tl st children n hn

theorem spExprList_preserve (hd : Nat) (tl : List Nat) (st : PMap) (es : List Expr)
    (n : Nat) (hn : ∃ p2, plookup st n = some (some p2)) :
    ∃ p2, plookup (spExprList (hd :: tl) st es) n = some (some p2) := by
  cases es with
  | nil => rw [spExprList]; exact hn
  | cons e rest =>
    rw [spExprList]
    exact spExprList_preserve hd tl _ rest n (spExpr_preserve hd tl st e n hn)
end

theorem spDecl_cover (stack : List Nat) (st : PMap) (d : Decl) (n : Nat)
    (hn : n ∈ declIds d) (hroot : n ≠ d.nid) :
    ∃ p2, plookup (spDecl stack st d) n = some (some p2) := by
  rw [declIds] at hn
  rcases List.mem_cons.mp hn with h | h
  · exact absurd h hroot
  · rw [spDecl]
    cases hde : d.expr with
    | none => rw [hde] at h; exact absurd h (List.not_mem_nil n)
    | some e =>
      rw [hde] at h
      exact spExpr_cover d.nid stack st e n h

theorem spDeclList_cover (stack : List Nat) :
    ∀ (ds : List Decl) (st : PMap) (n : Nat),
      (declListIds ds).Nodup → n ∈ declListIds ds → n ∉ ds.map Decl.nid →
      ∃ p2, plookup (spDeclList stack st ds) n = some (some p2) := by
  intro ds
  induction ds with
  | nil =>
    intro st n _ hn _
    rw [declListIds] at hn
    exact absurd hn (List.not_mem_nil n)
  | cons d rest ih =>
    intro st n hnd hn hnr
    rw [declListIds] at hnd hn
    rw [List.nodup_append] at hnd
    simp only [List.map_cons, List.mem_cons, not_or] at hnr
    have hfold : spDeclList stack st (d :: rest) =
        spDeclList stack (spDecl stack st d) rest := rfl
    rw [hfold]
    rcases List.mem_append.mp hn with h | h
    · have hcov := spDecl_cover stack st d n h hnr.1
      obtain ⟨p2, hp2⟩ := hcov
      refine ⟨p2, ?_⟩
      rw [spDeclList_frame stack rest (spDecl stack st d) n (fun hc => hnd.2.2 h hc)]
      exact hp2
    · exact ih _ n hnd.2.1 h hnr.2

mutual
theorem spElt_cover (stack : List Nat) (st : PMap) (e : WFElt) (n : Nat)
    (hnd : (eltIds e).Nodup) (hn : n ∈ eltIds e) (hroot : n ≠ WFElt.nid e) :
    ∃ p2, plookup (spElt stack st e) n = some (some p2) := by
  cases e with
  | decl d =>
    rw [eltIds] at hn
    rw [WFElt.nid] at hroot
    rw [spElt]
    exact spDecl_cover stack st d n hn hroot
  | call c =>
    rw [eltIds] at hn
    rw [WFElt.nid] at hroot
    rcases List.mem_cons.mp hn with h | h
    · exact absurd h hroot
    · exact absurd h (List.not_mem_nil n)
  | scatter nid p v scExpr elements =>
    rw [eltIds] at hn hnd
    rw [WFElt.nid] at hroot
    rw [List.nodup_cons, List.nodup_append] at hnd
    rw [spElt]
    rcases List.mem_cons.mp hn with h | h
    · exact absurd h hroot
    rcases List.mem_append.mp h with h2 | h2
    · obtain ⟨p2, hp2⟩ := spExpr_cover nid stack st scExpr n h2
      refine ⟨p2, ?_⟩
      rw [spAssignEltRoots_lookup,
        if_neg (fun hm => ?memroots),
        plookup_pset, if_neg (fun hq => hroot hq.symm),
        spEltList_frame _ _ elements n (fun hc => hnd.2.2.2 h2 hc)]
      · exact hp2
      case memroots =>
        rcases List.mem_map.mp hm with ⟨e2, he2, hek⟩
        exact hnd.2.2.2 h2 (eltListIds_mem_of_nid e2 _ he2 hek)
    · by_cases hmr : n ∈ elements.map WFElt.nid
      · refine ⟨nid, ?_⟩
        rw [spAssignEltRoots_lookup, if_pos hmr]
      · obtain ⟨p2, hp2⟩ := spEltList_cover (nid :: stack)
          (spExpr (nid :: stack) st scExpr) elements n hnd.2.2.1 h2 hmr
        refine ⟨p2, ?_⟩
        rw [spAssignEltRoots_lookup, if_neg hmr,
          plookup_pset, if_neg (fun hq => hroot hq.symm)]
        exact hp2
  | conditional nid p condExpr elements =>
    rw [eltIds] at hn hnd
    rw [WFElt.nid] at hroot
    rw [List.nodup_cons, List.nodup_append] at hnd
    rw [spElt]
    rcases List.mem_cons.mp hn with h | h
    · exact absurd h hroot
    rcases List.mem_append.mp h with h2 | h2
    · obtain ⟨p2, hp2⟩ := spExpr_cover nid stack st condExpr n h2
      refine ⟨p2, ?_⟩
      rw [spAssignEltRoots_lookup,
        if_neg (fun hm => ?memroots2),
        plookup_pset, if_neg (fun hq => hroot hq.symm),
        spEltList_frame _ _ elements n (fun hc => hnd.2.2.2 h2 hc)]
      · exact hp2
      case memroots2 =>
        rcases List.mem_map.mp hm with ⟨e2, he2, hek⟩
        exact hnd.2.2.2 h2 (eltListIds_mem_of_nid e2 _ he2 hek)
    · by_cases hmr : n ∈ elements.map WFElt.nid
      · refine ⟨nid, ?_⟩
        rw [spAssignEltRoots_lookup, if_pos hmr]
      · obtain ⟨p2, hp2⟩ := spEltList_cover (nid :: stack)
          (spExpr (nid :: stack) st condExpr) elements n hnd.2.2.1 h2 hmr
        refine ⟨p2, ?_⟩
        rw [spAssignEltRoots_lookup, if_neg hmr,
          plookup_pset, if_neg (fun hq => hroot hq.symm)]
        exact hp2

theorem spEltList_cover (stack : List Nat) (st : PMap) (es : List WFElt) (n : Nat)
    (hnd : (eltListIds es).Nodup) (hn : n ∈ eltListIds es)
    (hnr : n ∉ es.map WFElt.nid) :
    ∃ p2, plookup (spEltList stack st es) n = some (some p2) := by
  cases es with
  | nil =>
    rw [eltListIds] at hn
    exact absurd hn (List.not_mem_nil n)
  | cons e rest =>
    rw [eltListIds] at hnd hn
    rw [List.nodup_append] at hnd
    simp only [List.map_cons, List.mem_cons, not_or] at hnr
    rw [spEltList]
    rcases List.mem_append.mp hn with h | h
    · obtain ⟨p2, hp2⟩ := spElt_cover stack st e n hnd.1 h (fun hq => hnr.1 hq)
      refine ⟨p2, ?_⟩
      rw [spEltList_frame stack _ rest n (fun hc => hnd.2.2 h hc)]
      exact hp2
    · exact spEltList_cover stack _ rest n hnd.2.1 h hnr.2
end

theorem runtime_fold_preserve (hd : Nat) (tl : List Nat) :
    ∀ (rt : List (String × Expr)) (st : PMap) (n : Nat),
      (∃ p2, plookup st n = some (some p2)) →
      ∃ p2, plookup
        (rt.foldl (fun acc kv => spExpr (hd :: tl) acc kv.2) st) n = some (some p2) := by
  intro rt
  induction rt with
  | nil => intro st n hst; exact hst
  | cons kv rest ih =>
    intro st n hst
    simp only [List.foldl_cons]
    exact ih _ n (spExpr_preserve hd tl st kv.2 n hst)

theorem runtime_fold_cover (hd : Nat) (tl : List Nat) :
    ∀ (rt : List (String × Expr)) (st : PMap) (n : Nat),
      n ∈ (rt.map (fun kv => exprIds kv.2)).flatten →
      ∃ p2, plookup
        (rt.foldl (fun acc kv => spExpr (hd :: tl) acc kv.2) st) n = some (some p2) := by
  intro rt
  induction rt with
  | nil =>
    intro st n hn
    simp only [List.map_nil, List.flatten_nil] at hn
    exact absurd hn (List.not_mem_nil n)
  | cons kv rest ih =>
    intro st n hn
    simp only [List.map_cons, List.flatten_cons, List.mem_append] at hn
    simp only [List.foldl_cons]
    rcases hn with h | h
    · exact runtime_fold_preserve hd tl rest _ n (spExpr_cover hd tl st kv.2 n h)
    · exact ih _ n h

theorem spTask_cover (stack : List Nat) (st : PMap) (t : Task) (n : Nat)
    (hnd : (taskIds t).Nodup) (hn : n ∈ taskIds t) (hroot : n ≠ t.nid) :
    ∃ p2, plookup (spTask stack st t) n = some (some p2) := by
  rw [taskIds] at hnd hn
  rw [List.nodup_cons] at hnd
  obtain ⟨hn0, hbig⟩ := hnd
  simp only [List.nodup_append] at hbig
  obtain ⟨⟨⟨⟨nA, nB, dAB⟩, nC, dABC⟩, nD, dABCD⟩, nE, dABCDE⟩ := hbig
  rcases List.mem_cons.mp hn with h | h
  · exact absurd h hroot
  simp only [spTask]
  rcases List.mem_append.mp h with h4 | hE
  case inr =>
    by_cases hmr : n ∈ t.outputs.map Decl.nid
    · refine ⟨t.nid, ?_⟩
      rw [spAssignDeclRoots_lookup, if_pos hmr]
    · have hnotB : n ∉ t.postinputs.map Decl.nid := fun hm => by
        rcases List.mem_map.mp hm with ⟨d2, hd2, hdk⟩
        exact dABCDE (List.mem_append_left _ (List.mem_append_left _
          (List.mem_append_right _ (hdk ▸ declNid_mem_declListIds d2 _ hd2)))) hE
      have hnotA : n ∉ (t.inputs.getD []).map Decl.nid := fun hm => by
        rcases List.mem_map.mp hm with ⟨d2, hd2, hdk⟩
        exact dABCDE (List.mem_append_left _ (List.mem_append_left _
          (List.mem_append_left _ (hdk ▸ declNid_mem_declListIds d2 _ hd2)))) hE
      obtain ⟨p2, hp2⟩ := spDeclList_cover (t.nid :: stack) t.outputs _ n nE hE hmr
      refine ⟨p2, ?_⟩
      rw [spAssignDeclRoots_lookup, if_neg hmr,
        spAssignDeclRoots_lookup, if_neg hnotB,
        spAssignDeclRoots_lookup, if_neg hnotA,
        plookup_pset, if_neg (fun hq => hroot hq.symm)]
      exact hp2
  case inl =>
    have hnotE : n ∉ declListIds t.outputs := fun hc => dABCDE h4 hc
    have hnotEr : n ∉ t.outputs.map Decl.nid := fun hm => by
      rcases List.mem_map.mp hm with ⟨d2, hd2, hdk⟩
      exact hnotE (hdk ▸ declNid_mem_declListIds d2 _ hd2)
    rcases List.mem_append.mp h4 with h3 | hD
    case inr =>
      have hnotB : n ∉ t.postinputs.map Decl.nid := fun hm => by
        rcases List.mem_map.mp hm with ⟨d2, hd2, hdk⟩
        exact dABCD (List.mem_append_left _
          (List.mem_append_right _ (hdk ▸ declNid_mem_declListIds d2 _ hd2))) hD
      have hnotA : n ∉ (t.inputs.getD []).map Decl.nid := fun hm => by
        rcases List.mem_map.mp hm with ⟨d2, hd2, hdk⟩
        exact dABCD (List.mem_append_left _
          (List.mem_append_left _ (hdk ▸ declNid_mem_declListIds d2 _ hd2))) hD
      obtain ⟨p2, hp2⟩ := runtime_fold_cover t.nid stack t.runtime _ n hD
      refine ⟨p2, ?_⟩
      rw [spAssignDeclRoots_lookup, if_neg hnotEr,
        spAssignDeclRoots_lookup, if_neg hnotB,
        spAssignDeclRoots_lookup, if_neg hnotA,
        plookup_pset, if_neg (fun hq => hroot hq.symm),
        spDeclList_frame _ _ _ n hnotE]
      exact hp2
    case inl =>
      have hnotD : n ∉ (t.runtime.map (fun kv => exprIds kv.2)).flatten :=
        fun hc => dABCD h3 hc
      rcases List.mem_append.mp h3 with h2 | hC
      case inr =>
        have hnotB : n ∉ t.postinputs.map Decl.nid := fun hm => by
          rcases List.mem_map.mp hm with ⟨d2, hd2, hdk⟩
          exact dABC (List.mem_append_right _
            (hdk ▸ declNid_mem_declListIds d2 _ hd2)) hC
        have hnotA : n ∉ (t.inputs.getD []).map Decl.nid := fun hm => by
          rcases List.mem_map.mp hm with ⟨d2, hd2, hdk⟩
          exact dABC (List.mem_append_left _
            (hdk ▸ declNid_mem_declListIds d2 _ hd2)) hC
        obtain ⟨p2, hp2⟩ := spExpr_cover t.nid stack _ t.command.asExpr n hC
        refine ⟨p2, ?_⟩
        rw [spAssignDeclRoots_lookup, if_neg hnotEr,
          spAssignDeclRoots_lookup, if_neg hnotB,
          spAssignDeclRoots_lookup, if_neg hnotA,
          plookup_pset, if_neg (fun hq => hroot hq.symm),
          spDeclList_frame _ _ _ n hnotE,
          runtime_fold_frame _ _ _ n hnotD]
        exact hp2
      case inl =>
        have hnotC : n ∉ exprIds t.command.asExpr := fun hc => dABC h2 hc
        rcases List.mem_append.mp h2 with hA | hB
        case inr =>
          by_cases hmr : n ∈ t.postinputs.map Decl.nid
          · refine ⟨t.nid, ?_⟩
            rw [spAssignDeclRoots_lookup, if_neg hnotEr,
              spAssignDeclRoots_lookup, if_pos hmr]
          · have hnotA : n ∉ (t.inputs.getD []).map Decl.nid := fun hm => by
              rcases List.mem_map.mp hm with ⟨d2, hd2, hdk⟩
              exact dAB (hdk ▸ declNid_mem_declListIds d2 _ hd2) hB
            obtain ⟨p2, hp2⟩ := spDeclList_cover (t.nid :: stack) t.postinputs _ n nB hB hmr
            refine ⟨p2, ?_⟩
            rw [spAssignDeclRoots_lookup, if_neg hnotEr,
              spAssignDeclRoots_lookup, if_neg hmr,
              spAssignDeclRoots_lookup, if_neg hnotA,
              plookup_pset, if_neg (fun hq => hroot hq.symm),
              spDeclList_frame _ _ _ n hnotE,
              runtime_fold_frame _ _ _ n hnotD,
              spExpr_frame _ _ _ n hnotC]
            exact hp2
        case inl =>
          have hnotB2 : n ∉ declListIds t.postinputs := fun hc => dAB hA hc
          have hnotBr : n ∉ t.postinputs.map Decl.nid := fun hm => by
            rcases List.mem_map.mp hm with ⟨d2, hd2, hdk⟩
            exact hnotB2 (hdk ▸ declNid_mem_declListIds d2 _ hd2)
          by_cases hmr : n ∈ (t.inputs.getD []).map Decl.nid
          · refine ⟨t.nid, ?_⟩
            rw [spAssignDeclRoots_lookup, if_neg hnotEr,
              spAssignDeclRoots_lookup, if_neg hnotBr,
              spAssignDeclRoots_lookup, if_pos hmr]
          · obtain ⟨p2, hp2⟩ := spDeclList_cover (t.nid :: stack) (t.inputs.getD []) st n nA hA hmr
            refine ⟨p2, ?_⟩
            rw [spAssignDeclRoots_lookup, if_neg hnotEr,
              spAssignDeclRoots_lookup, if_neg hnotBr,
              spAssignDeclRoots_lookup, if_neg hmr,
              plookup_pset, if_neg (fun hq => hroot hq.symm),
              spDeclList_frame _ _ _ n hnotE,
              runtime_fold_frame _ _ _ n hnotD,
              spExpr_frame _ _ _ n hnotC,
              spDeclList_frame _ _ _ n hnotB2]
            exact hp2

theorem spWorkflow_cover (stack : List Nat) (st : PMap) (w : Workflow) (n : Nat)
    (hnd : (wfIds w).Nodup) (hn : n ∈ wfIds w) (hroot : n ≠ w.nid) :
    ∃ p2, plookup (spWorkflow stack st w) n = some (some p2) := by
  rw [wfIds] at hnd hn
  rw [List.nodup_cons] at hnd
  obtain ⟨hn0, hbig⟩ := hnd
  simp only [List.nodup_append] at hbig
  obtain ⟨⟨nA, nB, dAB⟩, nC, dABC⟩ := hbig
  rcases List.mem_cons.mp hn with h | h
  · exact absurd h hroot
  simp only [spWorkflow]
  rcases List.mem_append.mp h with h2 | hC
  case inr =>
    by_cases hmr : n ∈ (w.outputs.getD []).map Decl.nid
    · refine ⟨w.nid, ?_⟩
      rw [spAssignDeclRoots_lookup, if_pos hmr]
    · have hnotB : n ∉ w.elements.map WFElt.nid := fun hm => by
        rcases List.mem_map.mp hm with ⟨e2, he2, hek⟩
        exact dABC (List.mem_append_right _ (eltListIds_mem_of_nid e2 _ he2 hek)) hC
      have hnotA : n ∉ (w.inputs.getD []).map Decl.nid := fun hm => by
        rcases List.mem_map.mp hm with ⟨d2, hd2, hdk⟩
        exact dABC (List.mem_append_left _ (hdk ▸ declNid_mem_declListIds d2 _ hd2)) hC
      obtain ⟨p2, hp2⟩ := spDeclList_cover stack (w.outputs.getD []) _ n nC hC hmr
      refine ⟨p2, ?_⟩
      rw [spAssignDeclRoots_lookup, if_neg hmr,
        spAssignEltRoots_lookup, if_neg hnotB,
        spAssignDeclRoots_lookup, if_neg hnotA,
        plookup_pset, if_neg (fun hq => hroot hq.symm)]
      exact hp2
  case inl =>
    have hnotC : n ∉ declListIds (w.outputs.getD []) := fun hc => dABC h2 hc
    have hnotCr : n ∉ (w.outputs.getD []).map Decl.nid := fun hm => by
      rcases List.mem_map.mp hm with ⟨d2, hd2, hdk⟩
      exact hnotC (hdk ▸ declNid_mem_declListIds d2 _ hd2)
    rcases List.mem_append.mp h2 with hA | hB
    case inr =>
      by_cases hmr : n ∈ w.elements.map WFElt.nid
      · refine ⟨w.nid, ?_⟩
        rw [spAssignDeclRoots_lookup, if_neg hnotCr,
          spAssignEltRoots_lookup, if_pos hmr]
      · have hnotA : n ∉ (w.inputs.getD []).map Decl.nid := fun hm => by
          rcases List.mem_map.mp hm with ⟨d2, hd2, hdk⟩
          exact dAB (hdk ▸ declNid_mem_declListIds d2 _ hd2) hB
        obtain ⟨p2, hp2⟩ := spEltList_cover stack _ w.elements n nB hB hmr
        refine ⟨p2, ?_⟩
        rw [spAssignDeclRoots_lookup, if_neg hnotCr,
          spAssignEltRoots_lookup, if_neg hmr,
          spAssignDeclRoots_lookup, if_neg hnotA,
          plookup_pset, if_neg (fun hq => hroot hq.symm),
          spDeclList_frame _ _ _ n hnotC]
        exact hp2
    case inl =>
      have hnotB2 : n ∉ eltListIds w.elements := fun hc => dAB hA hc
      have hnotBr : n ∉ w.elements.map WFElt.nid := fun hm => by
        rcases List.mem_map.mp hm with ⟨e2, he2, hek⟩
        exact hnotB2 (eltListIds_mem_of_nid e2 _ he2 hek)
      by_cases hmr : n ∈ (w.inputs.getD []).map Decl.nid
      · refine ⟨w.nid, ?_⟩
        rw [spAssignDeclRoots_lookup, if_neg hnotCr,
          spAssignEltRoots_lookup, if_neg hnotBr,
          spAssignDeclRoots_lookup, if_pos hmr]
      · obtain ⟨p2, hp2⟩ := spDeclList_cover stack (w.inputs.getD []) st n nA hA hmr
        refine ⟨p2, ?_⟩
        rw [spAssignDeclRoots_lookup, if_neg hnotCr,
          spAssignEltRoots_lookup, if_neg hnotBr,
          spAssignDeclRoots_lookup, if_neg hmr,
          plookup_pset, if_neg (fun hq => hroot hq.symm),
          spDeclList_frame _ _ _ n hnotC,
          spEltList_frame _ _ _ n hnotB2]
        exact hp2

theorem wfIds_mem_nid (w : Workflow) : w.nid ∈ wfIds w := by
  rw [wfIds.eq_def]
  exact List.mem_cons_self _ _

theorem taskIds_mem_nid (t : Task) : t.nid ∈ taskIds t := by
  rw [taskIds.eq_def]
  exact List.mem_cons_self _ _

theorem tasks_fold_cover :
    ∀ (ts : List Task) (st : PMap) (n : Nat),
      ((ts.map taskIds).flatten).Nodup → n ∈ (ts.map taskIds).flatten →
      n ∉ ts.map Task.nid →
      ∃ p2, plookup (ts.foldl (fun acc t => spTask [] acc t) st) n = some (some p2) := by
  intro ts
  induction ts with
  | nil =>
    intro st n _ hn _
    simp only [List.map_nil, List.flatten_nil] at hn
    exact absurd hn (List.not_mem_nil n)
  | cons t rest ih =>
    intro st n hnd hn hnr
    simp only [List.map_cons, List.flatten_cons] at hnd hn
    rw [List.nodup_append] at hnd
    simp only [List.map_cons, List.mem_cons, not_or] at hnr
    simp only [List.foldl_cons]
    rcases List.mem_append.mp hn with h | h
    · obtain ⟨p2, hp2⟩ := spTask_cover [] st t n hnd.1 h hnr.1
      refine ⟨p2, ?_⟩
      rw [tasks_fold_frame rest _ n (fun hc => hnd.2.2 h hc)]
      exact hp2
    · exact ih _ n hnd.2.1 h hnr.2

mutual
theorem spDocument_cover (st : PMap) (d : Document) (hnd : (docIds d).Nodup) :
    plookup (spDocument st d) (Document.nid d) = some Option.none ∧
    (∀ n, n ∈ docIds d → n ≠ Document.nid d →
      ∃ p2, plookup (spDocument st d) n = some (some p2)) := by
  cases d with
  | mk nid p imports structs tasks workflow =>
    rw [docIds.eq_def] at hnd
    simp only [] at hnd
    rw [List.nodup_cons] at hnd
    obtain ⟨hn0, hbig⟩ := hnd
    simp only [List.nodup_append] at hbig
    obtain ⟨⟨⟨nI, nS, dIS⟩, nT, dIST⟩, nW, dISTW⟩ := hbig
    constructor
    · rw [Document.nid, spDocument.eq_def]
      simp only []
      cases workflow with
      | none =>
        rw [foldl_pset_lookup,
          if_neg (fun hm => hn0 (by
            rcases List.mem_map.mp hm with ⟨t2, ht2, htk⟩
            exact List.mem_append_left _ (List.mem_append_right _
              (taskNid_mem_flatten _ t2 ht2 htk)))),
          foldl_pset_lookup,
          if_neg (fun hm => hn0 (by
            rcases List.mem_map.mp hm with ⟨s2, hs2, hsk⟩
            exact List.mem_append_left _ (List.mem_append_left _
              (List.mem_append_right _ (hsk ▸ List.mem_map_of_mem _ hs2))))),
          foldl_pset_lookup,
          if_neg (fun hm => hn0 (by
            rcases List.mem_map.mp hm with ⟨kv2, hkv2, hkk⟩
            exact List.mem_append_left _ (List.mem_append_left _
              (List.mem_append_left _ (importsIds_mem_of_nid _ kv2 hkv2 hkk))))),
          plookup_pset, if_pos rfl]
      | some w =>
        rw [plookup_pset,
          if_neg (fun hq => hn0 (by
            rw [← hq]
            exact List.mem_append_right _ (wfIds_mem_nid w))),
          foldl_pset_lookup,
          if_neg (fun hm => hn0 (by
            rcases List.mem_map.mp hm with ⟨t2, ht2, htk⟩
            exact List.mem_append_left _ (List.mem_append_right _
              (taskNid_mem_flatten _ t2 ht2 htk)))),
          foldl_pset_lookup,
          if_neg (fun hm => hn0 (by
            rcases List.mem_map.mp hm with ⟨s2, hs2, hsk⟩
            exact List.mem_append_left _ (List.mem_append_left _
              (List.mem_append_right _ (hsk ▸ List.mem_map_of_mem _ hs2))))),
          foldl_pset_lookup,
          if_neg (fun hm => hn0 (by
            rcases List.mem_map.mp hm with ⟨kv2, hkv2, hkk⟩
            exact List.mem_append_left _ (List.mem_append_left _
              (List.mem_append_left _ (importsIds_mem_of_nid _ kv2 hkv2 hkk))))),
          plookup_pset, if_pos rfl]
    · intro n hn hroot
      rw [Document.nid] at hroot
      rw [docIds.eq_def] at hn
      simp only [] at hn
      rcases List.mem_cons.mp hn with h | h
      · exact absurd h hroot
      rw [spDocument.eq_def]
      simp only []
      rcases List.mem_append.mp h with h3 | hW
      case inr =>
        cases workflow with
        | none => exact absurd hW (List.not_mem_nil n)
        | some w =>
          by_cases hwr : n = w.nid
          · refine ⟨nid, ?_⟩
            rw [plookup_pset, if_pos hwr.symm]
          · have hnotTr : n ∉ tasks.map Task.nid := fun hm => by
              rcases List.mem_map.mp hm with ⟨t2, ht2, htk⟩
              exact dISTW (List.mem_append_right _
                (taskNid_mem_flatten _ t2 ht2 htk)) hW
            have hnotSr : n ∉ structs.map (fun s => s.nid) := fun hm => by
              exact dISTW (List.mem_append_left _ (List.mem_append_right _ hm)) hW
            have hnotIr : n ∉ imports.map (fun kv => kv.2.nid) := fun hm => by
              rcases List.mem_map.mp hm with ⟨kv2, hkv2, hkk⟩
              exact dISTW (List.mem_append_left _ (List.mem_append_left _
                (importsIds_mem_of_nid _ kv2 hkv2 hkk))) hW
            obtain ⟨p2, hp2⟩ := spWorkflow_cover [] _ w n nW hW hwr
            refine ⟨p2, ?_⟩
            rw [plookup_pset, if_neg (fun hq => hwr hq.symm),
              foldl_pset_lookup, if_neg hnotTr,
              foldl_pset_lookup, if_neg hnotSr,
              foldl_pset_lookup, if_neg hnotIr,
              plookup_pset, if_neg (fun hq => hroot hq.symm)]
            exact hp2
      case inl =>
        have hnotW : ∀ w2, workflow = some w2 → n ∉ wfIds w2 := by
          intro w2 hw2 hc
          rw [hw2] at dISTW
          exact dISTW h3 (by simpa using hc)
        rcases List.mem_append.mp h3 with h2 | hT
        case inr =>
          by_cases hmr : n ∈ tasks.map Task.nid
          · cases workflow with
            | none =>
              refine ⟨nid, ?_⟩
              rw [foldl_pset_lookup, if_pos hmr]
            | some w =>
              refine ⟨nid, ?_⟩
              rw [plookup_pset,
                if_neg (fun hq => hnotW w rfl (by rw [← hq]; exact wfIds_mem_nid w)),
                foldl_pset_lookup, if_pos hmr]
          · have hnotSr : n ∉ structs.map (fun s => s.nid) := fun hm => by
              exact dIST (List.mem_append_right _ hm) hT
            have hnotIr : n ∉ imports.map (fun kv => kv.2.nid) := fun hm => by
              rcases List.mem_map.mp hm with ⟨kv2, hkv2, hkk⟩
              exact dIST (List.mem_append_left _
                (importsIds_mem_of_nid _ kv2 hkv2 hkk)) hT
            obtain ⟨p2, hp2⟩ := tasks_fold_cover tasks (spImports st imports) n nT hT hmr
            cases workflow with
            | none =>
              refine ⟨p2, ?_⟩
              rw [foldl_pset_lookup, if_neg hmr,
                foldl_pset_lookup, if_neg hnotSr,
                foldl_pset_lookup, if_neg hnotIr,
                plookup_pset, if_neg (fun hq => hroot hq.symm)]
              exact hp2
            | some w =>
              refine ⟨p2, ?_⟩
              rw [plookup_pset,
                if_neg (fun hq => hnotW w rfl (by rw [← hq]; exact wfIds_mem_nid w)),
                foldl_pset_lookup, if_neg hmr,
                foldl_pset_lookup, if_neg hnotSr,
                foldl_pset_lookup, if_neg hnotIr,
                plookup_pset, if_neg (fun hq => hroot hq.symm),
                spWorkflow_frame [] _ w n (hnotW w rfl)]
              exact hp2
        case inl =>
          have hnotT : n ∉ (tasks.map taskIds).flatten := fun hc => dIST h2 hc
          have hnotTr : n ∉ tasks.map Task.nid := fun hm => by
            rcases List.mem_map.mp hm with ⟨t2, ht2, htk⟩
            exact hnotT (taskNid_mem_flatten _ t2 ht2 htk)
          rcases List.mem_append.mp h2 with hI | hS
          case inr =>
            have hnotIr : n ∉ imports.map (fun kv => kv.2.nid) := fun hm => by
              rcases List.mem_map.mp hm with ⟨kv2, hkv2, hkk⟩
              exact dIS (importsIds_mem_of_nid _ kv2 hkv2 hkk) hS
            cases workflow with
            | none =>
              refine ⟨nid, ?_⟩
              rw [foldl_pset_lookup, if_neg hnotTr,
                foldl_pset_lookup, if_pos hS]
            | some w =>
              refine ⟨nid, ?_⟩
              rw [plookup_pset,
                if_neg (fun hq => hnotW w rfl (by rw [← hq]; exact wfIds_mem_nid w)),
                foldl_pset_lookup, if_neg hnotTr,
                foldl_pset_lookup, if_pos hS]
          case inl =>
            have hnotS : n ∉ structs.map (fun s => s.nid) := fun hm => dIS hI hm
            by_cases hmr : n ∈ imports.map (fun kv => kv.2.nid)
            · cases workflow with
              | none =>
                refine ⟨nid, ?_⟩
                rw [foldl_pset_lookup, if_neg hnotTr,
                  foldl_pset_lookup, if_neg hnotS,
                  foldl_pset_lookup, if_pos hmr]
              | some w =>
                refine ⟨nid, ?_⟩
                rw [plookup_pset,
                  if_neg (fun hq => hnotW w rfl (by rw [← hq]; exact wfIds_mem_nid w)),
                  foldl_pset_lookup, if_neg hnotTr,
                  foldl_pset_lookup, if_neg hnotS,
                  foldl_pset_lookup, if_pos hmr]
            · obtain ⟨p2, hp2⟩ := spImports_cover st imports n nI hI hmr
              cases workflow with
              | none =>
                refine ⟨p2, ?_⟩
                rw [foldl_pset_lookup, if_neg hnotTr,
                  foldl_pset_lookup, if_neg hnotS,
                  foldl_pset_lookup, if_neg hmr,
                  plookup_pset, if_neg (fun hq => hroot hq.symm),
                  tasks_fold_frame _ _ n hnotT]
                exact hp2
              | some w =>
                refine ⟨p2, ?_⟩
                rw [plookup_pset,
                  if_neg (fun hq => hnotW w rfl (by rw [← hq]; exact wfIds_mem_nid w)),
                  foldl_pset_lookup, if_neg hnotTr,
                  foldl_pset_lookup, if_neg hnotS,
                  foldl_pset_lookup, if_neg hmr,
                  plookup_pset, if_neg (fun hq => hroot hq.symm),
                  spWorkflow_frame [] _ w n (hnotW w rfl),
                  tasks_fold_frame _ _ n hnotT]
                exact hp2

theorem spImports_cover (st : PMap) (l : List (String × Document)) (n : Nat)
    (hnd : (importsIds l).Nodup) (hn : n ∈ importsIds l)
    (hnr : n ∉ l.map (fun kv => kv.2.nid)) :
    ∃ p2, plookup (spImports st l) n = some (some p2) := by
  cases l with
  | nil =>
    rw [importsIds] at hn
    exact absurd hn (List.not_mem_nil n)
  | cons kv rest =>
    cases kv with
    | mk ns d2 =>
      rw [importsIds] at hnd hn
      rw [List.nodup_append] at hnd
      simp only [List.map_cons, List.mem_cons, not_or] at hnr
      rw [spImports]
      rcases List.mem_append.mp hn with h | h
      · obtain ⟨p2, hp2⟩ := (spDocument_cover st d2 hnd.1).2 n h
          (fun hq => hnr.1 (by rw [hq]))
        refine ⟨p2, ?_⟩
        rw [spImports_frame _ rest n (fun hc => hnd.2.2 h hc)]
        exact hp2
      · exact spImports_cover _ rest n hnd.2.1 h hnr.2
end

/-- C2: after the parent-linking pass runs on a document whose nodes have
distinct identities, every node other than the root Document reachable via
the children enumeration — imported documents, workflows, tasks, calls,
scatters, conditionals, declarations, struct-type definitions and
expressions — has a non-null `parent`, and the root Document's `parent` is
null. -/
theorem setParents_parent_invariant (d : Document) (hnd : (docIds d).Nodup) :
    plookup (setParents d) (Document.nid d) = some Option.none ∧
    ∀ n, n ∈ docIds d → n ≠ Document.nid d →
      ∃ p2, plookup (setParents d) n = some (some p2) := by
  rw [setParents]
  exact spDocument_cover [] d hnd

/-- C2 witness: on the sample document, the root's parent is null and the
call node nested inside the scatter has a non-null parent. -/
theorem setParents_parent_invariant_witness :
    plookup (setParents exampleDoc) 0 = some Option.none ∧
    (∃ p2, plookup (setParents exampleDoc) 9 = some (some p2)) :=
  ⟨(setParents_parent_invariant exampleDoc (by decide)).1,
   (setParents_parent_invariant exampleDoc (by decide)).2 9 (by decide) (by decide)⟩

/-! Helper lemmas for C1: behavior of the `called` state, well-formedness
of the workflow association list, and the marking recursion's
preservation, frame and positive lemmas (by strong induction on fuel). -/

theorem calledOf_cset (st : CMap) (k n : Nat) (v : Bool) :
    calledOf (cset st k v) n = if k = n then v else calledOf st n := by
  by_cases h : k = n <;> simp [cset, calledOf, clookup, List.find?_cons, h]

theorem calledOf_nil (n : Nat) : calledOf [] n = false := rfl

theorem tasks_cset_fold (v : Bool) :
    ∀ (ts : List Task) (st : CMap) (n : Nat),
      calledOf (ts.foldl (fun acc t => cset acc t.nid v) st) n =
        if n ∈ ts.map Task.nid then v else calledOf st n := by
  intro ts
  induction ts with
  | nil => intro st n; simp
  | cons t rest ih =>
    intro st n
    simp only [List.foldl_cons, List.map_cons, List.mem_cons]
    rw [ih]
    by_cases hr : n ∈ rest.map Task.nid
    · simp [hr]
    · rw [if_neg hr, calledOf_cset]
      by_cases hx : t.nid = n
      · simp [hx]
      · have hcond : ¬(n = t.nid ∨ n ∈ rest.map Task.nid) := by
          rintro (h | h)
          · exact hx h.symm
          · exact hr h
        rw [if_neg hx, if_neg hcond]

mutual
theorem allWfAssoc_key (d : Document) :
    ∀ kv ∈ allWfAssoc d, (kv : Nat × Workflow).2.nid = kv.1 := by
  cases d with
  | mk nid p imports structs tasks workflow =>
    intro kv hkv
    rw [allWfAssoc.eq_def] at hkv
    simp only [] at hkv
    rcases List.mem_append.mp hkv with h | h
    · cases workflow with
      | none => exact absurd h (List.not_mem_nil kv)
      | some w =>
        simp only [List.mem_singleton] at h
        subst h
        rfl
    · exact importsWfAssoc_key imports kv h

theorem importsWfAssoc_key (l : List (String × Document)) :
    ∀ kv ∈ importsWfAssoc l, (kv : Nat × Workflow).2.nid = kv.1 := by
  cases l with
  | nil => intro kv hkv; exact absurd hkv (List.not_mem_nil kv)
  | cons a rest =>
    cases a with
    | mk ns d2 =>
      intro kv hkv
      rw [importsWfAssoc.eq_def] at hkv
      simp only [] at hkv
      rcases List.mem_append.mp hkv with h | h
      · exact allWfAssoc_key d2 kv h
      · exact importsWfAssoc_key rest kv h
end

theorem wfLookup_mem (wfs : List (Nat × Workflow)) (k : Nat) (w : Workflow)
    (h : wfLookup wfs k = some w) : (k, w) ∈ wfs ∧ ∃ kv ∈ wfs, kv.2 = w ∧ kv.1 = k := by
  rw [wfLookup] at h
  cases hf : wfs.find? (fun kv => kv.1 == k) with
  | none => rw [hf] at h; exact absurd h (by simp)
  | some kv =>
    rw [hf] at h
    simp only [Option.map_some', Option.some_inj] at h
    have hmem := List.mem_of_find?_eq_some hf
    have hpred := List.find?_some hf
    simp only [beq_iff_eq] at hpred
    cases kv with
    | mk k2 w2 =>
      simp only [] at hpred h
      subst hpred
      subst h
      exact ⟨hmem, ⟨(k2, w2), hmem, rfl, rfl⟩⟩

theorem wfLookup_nid (d : Document) (k : Nat) (w : Workflow)
    (h : wfLookup (allWfAssoc d) k = some w) : w.nid = k := by
  obtain ⟨hmem, -⟩ := wfLookup_mem _ k w h
  exact allWfAssoc_key d (k, w) hmem

theorem mc_preserve (wfs : List (Nat × Workflow)) (pm : PMap)
    (hwfs : ∀ k w, wfLookup wfs k = some w → w.nid = k) :
    ∀ fuel : Nat,
      (∀ (st : CMap) (c : CallNode) (st2 : CMap),
        mcCall wfs pm fuel st c = some st2 →
        ∀ n, calledOf st n = true → calledOf st2 n = true) ∧
      (∀ (st : CMap) (e : WFElt) (st2 : CMap),
        mcElt wfs pm fuel st e = some st2 →
        ∀ n, calledOf st n = true → calledOf st2 n = true) ∧
      (∀ (st : CMap) (es : List WFElt) (st2 : CMap),
        mcElems wfs pm fuel st es = some st2 →
        ∀ n, calledOf st n = true → calledOf st2 n = true) := by
  intro fuel
  induction fuel using Nat.strong_induction_on with
  | _ fuel ih =>
    cases fuel with
    | zero =>
      refine ⟨?_, ?_, ?_⟩
      · intro st c st2 h
        rw [mcCall] at h
        exact absurd h (by simp)
      · intro st e st2 h
        rw [mcElt] at h
        exact absurd h (by simp)
      · intro st es st2 h
        rw [mcElems] at h
        exact absurd h (by simp)
    | succ f =>
      have ihf := ih f (Nat.lt_succ_self f)
      refine ⟨?_, ?_, ?_⟩
      · intro st c st2 h n htrue
        rw [mcCall] at h
        by_cases hw : c.callee.isWorkflow
        · rw [if_pos hw] at h
          cases hl : wfLookup wfs c.callee.nid with
          | none => rw [hl] at h; exact absurd h (by simp)
          | some w =>
            rw [hl] at h
            simp only [] at h
            cases hv : mcVisitWf wfs pm f true st w with
            | none => rw [hv] at h; exact absurd h (by simp)
            | some st1 =>
              rw [hv] at h
              simp only [Option.some_inj] at h
              subst h
              rw [calledOf_cset]
              by_cases hn : c.callee.nid = n
              · rw [if_pos hn]
              · rw [if_neg hn]
                have hwn : w.nid = c.callee.nid := hwfs _ _ hl
                cases f with
                | zero => rw [mcVisitWf] at hv; exact absurd hv (by simp)
                | succ g =>
                  rw [mcVisitWf] at hv
                  simp only [] at hv
                  by_cases ht : mcTopTest pm w.nid
                  · rw [if_pos ht] at hv
                    simp only [if_true] at hv
                    exact absurd hv (by simp)
                  · rw [if_neg ht] at hv
                    simp only [if_true] at hv
                    have hg : g < g + 1 + 1 :=
                      Nat.lt_trans (Nat.lt_succ_self g) (Nat.lt_succ_self (g + 1))
                    refine (ih g hg).2.2 _ _ _ hv n ?_
                    rw [calledOf_cset, if_neg (fun hq => hn (hwn ▸ hq))]
                    exact htrue
        · rw [if_neg hw] at h
          simp only [Option.some_inj] at h
          subst h
          rw [calledOf_cset]
          by_cases hn : c.callee.nid = n
          · rw [if_pos hn]
          · rw [if_neg hn]
            exact htrue
      · intro st e st2 h n htrue
        rw [mcElt.eq_def] at h
        simp only [] at h
        cases e with
        | decl d2 =>
          simp only [Option.some_inj] at h
          subst h
          exact htrue
        | call c => exact ihf.1 _ _ _ h n htrue
        | scatter nid p v scExpr elements => exact ihf.2.2 _ _ _ h n htrue
        | conditional nid p condExpr elements => exact ihf.2.2 _ _ _ h n htrue
      · intro st es st2 h n htrue
        rw [mcElems.eq_def] at h
        simp only [] at h
        cases es with
        | nil =>
          simp only [Option.some_inj] at h
          subst h
          exact htrue
        | cons e rest =>
          simp only [] at h
          cases he : mcElt wfs pm f st e with
          | none => rw [he] at h; exact absurd h (by simp)
          | some st1 =>
            rw [he] at h
            simp only [] at h
            exact ihf.2.2 _ _ _ h n (ihf.2.1 _ _ _ he n htrue)

theorem mc_frame (wfs : List (Nat × Workflow)) (pm : PMap)
    (hwfs : ∀ k w, wfLookup wfs k = some w → w.nid = k) :
    ∀ fuel : Nat,
      (∀ (st : CMap) (c : CallNode) (st2 : CMap),
        mcCall wfs pm fuel st c = some st2 →
        ∀ n, calledOf st2 n ≠ calledOf st n →
          Relation.ReflTransGen (CallEdge wfs) c.callee.nid n) ∧
      (∀ (st : CMap) (e : WFElt) (st2 : CMap),
        mcElt wfs pm fuel st e = some st2 →
        ∀ n, calledOf st2 n ≠ calledOf st n →
          ∃ c ∈ callsOfElt e, Relation.ReflTransGen (CallEdge wfs) c.callee.nid n) ∧
      (∀ (st : CMap) (es : List WFElt) (st2 : CMap),
        mcElems wfs pm fuel st es = some st2 →
        ∀ n, calledOf st2 n ≠ calledOf st n →
          ∃ c ∈ callsOfElts es, Relation.ReflTransGen (CallEdge wfs) c.callee.nid n) := by
  intro fuel
  induction fuel using Nat.strong_induction_on with
  | _ fuel ih =>
    cases fuel with
    | zero =>
      refine ⟨?_, ?_, ?_⟩
      · intro st c st2 h
        rw [mcCall] at h
        exact absurd h (by simp)
      · intro st e st2 h
        rw [mcElt] at h
        exact absurd h (by simp)
      · intro st es st2 h
        rw [mcElems] at h
        exact absurd h (by simp)
    | succ f =>
      have ihf := ih f (Nat.lt_succ_self f)
      refine ⟨?_, ?_, ?_⟩
      · intro st c st2 h n hchg
        rw [mcCall] at h
        by_cases hw : c.callee.isWorkflow
        · rw [if_pos hw] at h
          cases hl : wfLookup wfs c.callee.nid with
          | none => rw [hl] at h; exact absurd h (by simp)
          | some w =>
            rw [hl] at h
            simp only [] at h
            cases hv : mcVisitWf wfs pm f true st w with
            | none => rw [hv] at h; exact absurd h (by simp)
            | some st1 =>
              rw [hv] at h
              simp only [Option.some_inj] at h
              subst h
              by_cases hn : c.callee.nid = n
              · exact hn ▸ Relation.ReflTransGen.refl
              · rw [calledOf_cset, if_neg hn] at hchg
                have hwn : w.nid = c.callee.nid := hwfs _ _ hl
                cases f with
                | zero => rw [mcVisitWf] at hv; exact absurd hv (by simp)
                | succ g =>
                  rw [mcVisitWf] at hv
                  simp only [] at hv
                  by_cases ht : mcTopTest pm w.nid
                  · rw [if_pos ht] at hv
                    simp only [if_true] at hv
                    exact absurd hv (by simp)
                  · rw [if_neg ht] at hv
                    simp only [if_true] at hv
                    have hg : g < g + 1 + 1 :=
                      Nat.lt_trans (Nat.lt_succ_self g) (Nat.lt_succ_self (g + 1))
                    have hst' : calledOf (cset st w.nid false) n = calledOf st n := by
                      rw [calledOf_cset, if_neg (fun hq => hn (hwn ▸ hq))]
                    by_cases hmid : calledOf st1 n = calledOf (cset st w.nid false) n
                    · exact absurd (hmid.trans hst') hchg
                    · obtain ⟨c2, hc2, hpath⟩ := (ih g hg).2.2 _ _ _ hv n hmid
                      refine Relation.ReflTransGen.head ⟨w, hl, c2, hc2, rfl⟩ hpath
        · rw [if_neg hw] at h
          simp only [Option.some_inj] at h
          subst h
          by_cases hn : c.callee.nid = n
          · exact hn ▸ Relation.ReflTransGen.refl
          · rw [calledOf_cset, if_neg hn] at hchg
            exact absurd rfl hchg
      · intro st e st2 h n hchg
        rw [mcElt.eq_def] at h
        simp only [] at h
        cases e with
        | decl d2 =>
          simp only [Option.some_inj] at h
          subst h
          exact absurd rfl hchg
        | call c =>
          obtain ⟨hpath⟩ := And.intro (ihf.1 _ _ _ h n hchg) trivial
          exact ⟨c, by rw [callsOfElt]; exact List.mem_singleton.mpr rfl, hpath⟩
        | scatter nid p v scExpr elements =>
          obtain ⟨c2, hc2, hpath⟩ := ihf.2.2 _ _ _ h n hchg
          exact ⟨c2, by rw [callsOfElt]; exact hc2, hpath⟩
        | conditional nid p condExpr elements =>
          obtain ⟨c2, hc2, hpath⟩ := ihf.2.2 _ _ _ h n hchg
          exact ⟨c2, by rw [callsOfElt]; exact hc2, hpath⟩
      · intro st es st2 h n hchg
        rw [mcElems.eq_def] at h
        simp only [] at h
        cases es with
        | nil =>
          simp only [Option.some_inj] at h
          subst h
          exact absurd rfl hchg
        | cons e rest =>
          simp only [] at h
          cases he : mcElt wfs pm f st e with
          | none => rw [he] at h; exact absurd h (by simp)
          | some st1 =>
            rw [he] at h
            simp only [] at h
            by_cases hmid : calledOf st1 n = calledOf st n
            · obtain ⟨c2, hc2, hpath⟩ := ihf.2.2 _ _ _ h n (fun hq => hchg (hq.trans hmid))
              exact ⟨c2, by rw [callsOfElts]; exact List.mem_append_right _ hc2, hpath⟩
            · obtain ⟨c2, hc2, hpath⟩ := ihf.2.1 _ _ _ he n hmid
              exact ⟨c2, by rw [callsOfElts]; exact List.mem_append_left _ hc2, hpath⟩

theorem mc_pos (wfs : List (Nat × Workflow)) (pm : PMap)
    (hwfs : ∀ k w, wfLookup wfs k = some w → w.nid = k)
    (hcons : ∀ k w, wfLookup wfs k = some w → ∀ c ∈ callsOfElts w.elements,
      (c.callee.isWorkflow = true ↔ (wfLookup wfs c.callee.nid).isSome = true)) :
    ∀ fuel : Nat,
      (∀ (st : CMap) (c : CallNode) (st2 : CMap),
        mcCall wfs pm fuel st c = some st2 →
        (c.callee.isWorkflow = true ↔ (wfLookup wfs c.callee.nid).isSome = true) →
        ∀ n, Relation.ReflTransGen (CallEdge wfs) c.callee.nid n →
          calledOf st2 n = true) ∧
      (∀ (st : CMap) (e : WFElt) (st2 : CMap),
        mcElt wfs pm fuel st e = some st2 →
        (∀ c2 ∈ callsOfElt e,
          (c2 : CallNode).callee.isWorkflow = true ↔ (wfLookup wfs c2.callee.nid).isSome = true) →
        ∀ c2 ∈ callsOfElt e, ∀ n,
          Relation.ReflTransGen (CallEdge wfs) (c2 : CallNode).callee.nid n →
          calledOf st2 n = true) ∧
      (∀ (st : CMap) (es : List WFElt) (st2 : CMap),
        mcElems wfs pm fuel st es = some st2 →
        (∀ c2 ∈ callsOfElts es,
          (c2 : CallNode).callee.isWorkflow = true ↔ (wfLookup wfs c2.callee.nid).isSome = true) →
        ∀ c2 ∈ callsOfElts es, ∀ n,
          Relation.ReflTransGen (CallEdge wfs) (c2 : CallNode).callee.nid n →
          calledOf st2 n = true) := by
  intro fuel
  induction fuel using Nat.strong_induction_on with
  | _ fuel ih =>
    cases fuel with
    | zero =>
      refine ⟨?_, ?_, ?_⟩
      · intro st c st2 h
        rw [mcCall] at h
        exact absurd h (by simp)
      · intro st e st2 h
        rw [mcElt] at h
        exact absurd h (by simp)
      · intro st es st2 h
        rw [mcElems] at h
        exact absurd h (by simp)
    | succ f =>
      have ihf := ih f (Nat.lt_succ_self f)
      refine ⟨?_, ?_, ?_⟩
      · intro st c st2 h hiff n hpath
        rw [mcCall] at h
        rcases Relation.ReflTransGen.cases_head hpath with heq | ⟨m, hedge, hpath2⟩
        · subst heq
          by_cases hw : c.callee.isWorkflow
          · rw [if_pos hw] at h
            cases hl : wfLookup wfs c.callee.nid with
            | none => rw [hl] at h; exact absurd h (by simp)
            | some w =>
              rw [hl] at h
              simp only [] at h
              cases hv : mcVisitWf wfs pm f true st w with
              | none => rw [hv] at h; exact absurd h (by simp)
              | some st1 =>
                rw [hv] at h
                simp only [Option.some_inj] at h
                subst h
                rw [calledOf_cset, if_pos rfl]
          · rw [if_neg hw] at h
            simp only [Option.some_inj] at h
            subst h
            rw [calledOf_cset, if_pos rfl]
        · obtain ⟨w2, hlw, c3, hc3, hc3eq⟩ := hedge
          have hw : c.callee.isWorkflow = true := hiff.mpr (by rw [hlw]; rfl)
          rw [if_pos hw] at h
          cases hl : wfLookup wfs c.callee.nid with
          | none => rw [hl] at h; exact absurd h (by simp)
          | some w =>
            rw [hl] at h
            simp only [] at h
            cases hv : mcVisitWf wfs pm f true st w with
            | none => rw [hv] at h; exact absurd h (by simp)
            | some st1 =>
              rw [hv] at h
              simp only [Option.some_inj] at h
              subst h
              have hww : w2 = w := by
                rw [hlw] at hl
                exact (Option.some_inj.mp hl)
              subst hww
              cases f with
              | zero => rw [mcVisitWf] at hv; exact absurd hv (by simp)
              | succ g =>
                rw [mcVisitWf] at hv
                simp only [] at hv
                by_cases ht : mcTopTest pm w2.nid
                · rw [if_pos ht] at hv
                  simp only [if_true] at hv
                  exact absurd hv (by simp)
                · rw [if_neg ht] at hv
                  simp only [if_true] at hv
                  have hg : g < g + 1 + 1 :=
                    Nat.lt_trans (Nat.lt_succ_self g) (Nat.lt_succ_self (g + 1))
                  have hmark := (ih g hg).2.2 _ _ _ hv (hcons _ _ hlw) c3 hc3 n
                    (hc3eq ▸ hpath2)
                  rw [calledOf_cset]
                  by_cases hq : c.callee.nid = n
                  · rw [if_pos hq]
                  · rw [if_neg hq]
                    exact hmark
      · intro st e st2 h hiffs c2 hc2 n hpath
        rw [mcElt.eq_def] at h
        simp only [] at h
        cases e with
        | decl d2 =>
          rw [callsOfElt] at hc2
          exact absurd hc2 (List.not_mem_nil c2)
        | call c =>
          rw [callsOfElt] at hc2 hiffs
          have hceq : c2 = c := List.mem_singleton.mp hc2
          subst hceq
          exact ihf.1 _ _ _ h (hiffs c2 (List.mem_singleton.mpr rfl)) n hpath
        | scatter nid p v scExpr elements =>
          rw [callsOfElt] at hc2 hiffs
          exact ihf.2.2 _ _ _ h hiffs c2 hc2 n hpath
        | conditional nid p condExpr elements =>
          rw [callsOfElt] at hc2 hiffs
          exact ihf.2.2 _ _ _ h hiffs c2 hc2 n hpath
      · intro st es st2 h hiffs c2 hc2 n hpath
        rw [mcElems.eq_def] at h
        simp only [] at h
        cases es with
        | nil =>
          rw [callsOfElts] at hc2
          exact absurd hc2 (List.not_mem_nil c2)
        | cons e rest =>
          simp only [] at h
          rw [callsOfElts] at hc2 hiffs
          cases he : mcElt wfs pm f st e with
          | none => rw [he] at h; exact absurd h (by simp)
          | some st1 =>
            rw [he] at h
            simp only [] at h
            rcases List.mem_append.mp hc2 with hin | hin
            · have hmid := ihf.2.1 _ _ _ he
                (fun c3 hc3 => hiffs c3 (List.mem_append_left _ hc3)) c2 hin n hpath
              exact (mc_preserve wfs pm hwfs f).2.2 _ _ _ h n hmid
            · exact ihf.2.2 _ _ _ h
                (fun c3 hc3 => hiffs c3 (List.mem_append_right _ hc3)) c2 hin n hpath

mutual
theorem mcDoc_nomark (wfs : List (Nat × Workflow)) (pm : PMap) (fuel : Nat)
    (d2 : Document) :
    ∀ (st st2 : CMap),
      mcDoc wfs pm fuel st d2 = some st2 →
      (∀ kv ∈ allWfAssoc d2, mcTopTest pm (kv : Nat × Workflow).1 = false) →
      ∀ n, calledOf st2 n = true → calledOf st n = true := by
  cases d2 with
  | mk nid p imports structs tasks workflow =>
    intro st st2 h htops n htrue
    rw [mcDoc] at h
    cases hImp : mcImports wfs pm fuel st imports with
    | none => rw [hImp] at h; exact absurd h (by simp)
    | some st1 =>
      rw [hImp] at h
      simp only [] at h
      have htopsImp : ∀ kv ∈ importsWfAssoc imports,
          mcTopTest pm (kv : Nat × Workflow).1 = false := by
        intro kv hkv
        refine htops kv ?_
        rw [allWfAssoc.eq_def]
        exact List.mem_append_right _ hkv
      cases workflow with
      | none =>
        simp only [Option.some_inj] at h
        subst h
        rw [tasks_cset_fold] at htrue
        by_cases hmem : n ∈ tasks.map Task.nid
        · rw [if_pos hmem] at htrue
          exact absurd htrue (by simp)
        · rw [if_neg hmem] at htrue
          exact mcImports_nomark wfs pm fuel imports st st1 hImp htopsImp n htrue
      | some w =>
        simp only [] at h
        cases fuel with
        | zero =>
          rw [mcVisitWf.eq_def] at h
          simp only [] at h
          exact absurd h (by simp)
        | succ f =>
          rw [mcVisitWf.eq_def] at h
          simp only [] at h
          have htw : mcTopTest pm w.nid = false := by
            refine htops (w.nid, w) ?_
            rw [allWfAssoc.eq_def]
            exact List.mem_append_left _ (List.mem_singleton.mpr rfl)
          rw [if_neg (by rw [htw]; simp)] at h
          simp only [Bool.false_eq_true, if_false] at h
          simp only [Option.some_inj] at h
          subst h
          rw [calledOf_cset] at htrue
          by_cases hwn : w.nid = n
          · rw [if_pos hwn] at htrue
            exact absurd htrue (by simp)
          · rw [if_neg hwn, tasks_cset_fold] at htrue
            by_cases hmem : n ∈ tasks.map Task.nid
            · rw [if_pos hmem] at htrue
              exact absurd htrue (by simp)
            · rw [if_neg hmem] at htrue
              exact mcImports_nomark wfs pm (f + 1) imports st st1 hImp htopsImp n htrue

theorem mcImports_nomark (wfs : List (Nat × Workflow)) (pm : PMap) (fuel : Nat)
    (l : List (String × Document)) :
    ∀ (st st2 : CMap),
      mcImports wfs pm fuel st l = some st2 →
      (∀ kv ∈ importsWfAssoc l, mcTopTest pm (kv : Nat × Workflow).1 = false) →
      ∀ n, calledOf st2 n = true → calledOf st n = true := by
  cases l with
  | nil =>
    intro st st2 h _ n htrue
    rw [mcImports] at h
    simp only [Option.some_inj] at h
    subst h
    exact htrue
  | cons a rest =>
    cases a with
    | mk ns d3 =>
      intro st st2 h htops n htrue
      rw [mcImports] at h
      cases hd : mcDoc wfs pm fuel st d3 with
      | none => rw [hd] at h; exact absurd h (by simp)
      | some stm =>
        rw [hd] at h
        simp only [] at h
        have h1 := mcImports_nomark wfs pm fuel rest stm st2 h
          (fun kv hkv => htops kv (by
            rw [importsWfAssoc]
            exact List.mem_append_right _ hkv)) n htrue
        exact mcDoc_nomark wfs pm fuel d3 st stm hd
          (fun kv hkv => htops kv (by
            rw [importsWfAssoc]
            exact List.mem_append_left _ hkv)) n h1
end

/-- C1: after the annotation passes run (parent-linking producing `pm`,
then call-reachability marking), for every Task and Workflow node of the
tree, its `called` flag is true if and only if a path of Call edges exists
from the unique top-level workflow `w0` to that node.  Hypotheses:
the root document has workflow `w0`; workflow identities are distinct; the
parent annotations make `obj.parent.parent is None` hold exactly at `w0`
(which `SetParents` establishes); callee `isinstance(·, Tree.Workflow)`
flags agree with the tree (`hcons`); and the marking pass terminated
(`hrun` — the source diverges on a cyclic call graph). -/
theorem markCalled_called_iff_reachable (d : Document) (pm : PMap) (fuel : Nat)
    (w0 : Workflow) (hw0 : d.workflow = some w0)
    (hnodup : ((allWfAssoc d).map Prod.fst).Nodup)
    (htop : ∀ kv ∈ allWfAssoc d,
      (mcTopTest pm (kv : Nat × Workflow).1 = true) ↔ kv.1 = w0.nid)
    (hcons : ∀ k w, wfLookup (allWfAssoc d) k = some w →
      ∀ c ∈ callsOfElts w.elements,
        ((c : CallNode).callee.isWorkflow = true ↔
          (wfLookup (allWfAssoc d) c.callee.nid).isSome = true))
    (final : CMap) (hrun : markCalled pm fuel d = some final) :
    ∀ n, n ∈ execIds d →
      (calledOf final n = true ↔
        Relation.ReflTransGen (CallEdge (allWfAssoc d)) w0.nid n) := by
  have hwfs : ∀ k w, wfLookup (allWfAssoc d) k = some w → w.nid = k :=
    fun k w h => wfLookup_nid d k w h
  intro n hn
  cases d with
  | mk nid p imports structs tasks workflow =>
    rw [Document.workflow] at hw0
    subst hw0
    have hassoc : allWfAssoc (Document.mk nid p imports structs tasks (some w0)) =
        (w0.nid, w0) :: importsWfAssoc imports := by
      rw [allWfAssoc.eq_def]
      rfl
    have hlam : wfLookup
        (allWfAssoc (Document.mk nid p imports structs tasks (some w0))) w0.nid =
        some w0 := by
      rw [hassoc, wfLookup]
      simp [List.find?]
    rw [markCalled, mcDoc] at hrun
    cases hImp : mcImports (allWfAssoc (Document.mk nid p imports structs tasks (some w0)))
        pm fuel [] imports with
    | none => rw [hImp] at hrun; exact absurd hrun (by simp)
    | some stA =>
      rw [hImp] at hrun
      simp only [] at hrun
      have hA : ∀ m, calledOf stA m = true → False := by
        intro m hm
        have htopsImp : ∀ kv ∈ importsWfAssoc imports,
            mcTopTest pm (kv : Nat × Workflow).1 = false := by
          intro kv hkv
          have hne : kv.1 ≠ w0.nid := by
            rw [hassoc] at hnodup
            simp only [List.map_cons, List.nodup_cons] at hnodup
            intro hq
            exact hnodup.1 (hq ▸ List.mem_map_of_mem Prod.fst hkv)
          have := (htop kv (by rw [hassoc]; exact List.mem_cons_of_mem _ hkv))
          cases hb : mcTopTest pm kv.1 with
          | false => rfl
          | true => exact absurd (this.mp hb) hne
        have := mcImports_nomark _ pm fuel imports [] stA hImp htopsImp m hm
        exact absurd this (by simp [calledOf_nil])
      have hB : ∀ m,
          calledOf (tasks.foldl (fun acc t => cset acc t.nid false) stA) m = true →
          False := by
        intro m hm
        rw [tasks_cset_fold] at hm
        by_cases hmem : m ∈ tasks.map Task.nid
        · rw [if_pos hmem] at hm
          exact absurd hm (by simp)
        · rw [if_neg hmem] at hm
          exact hA m hm
      cases fuel with
      | zero =>
        rw [mcVisitWf.eq_def] at hrun
        simp only [] at hrun
        exact absurd hrun (by simp)
      | succ f =>
        rw [mcVisitWf.eq_def] at hrun
        simp only [] at hrun
        have htop0 : mcTopTest pm w0.nid = true :=
          (htop (w0.nid, w0) (by rw [hassoc]; exact List.mem_cons_self _ _)).mpr rfl
        rw [if_pos htop0] at hrun
        simp only [Bool.false_eq_true, if_false] at hrun
        have hst2 : ∀ m,
            calledOf (cset (cset (tasks.foldl (fun acc t => cset acc t.nid false) stA)
              w0.nid false) w0.nid true) m = true ↔ m = w0.nid := by
          intro m
          rw [calledOf_cset]
          by_cases hq : w0.nid = m
          · simp [hq]
          · rw [if_neg hq, calledOf_cset, if_neg hq]
            constructor
            · intro hm
              exact absurd hm (fun hc => hB m hc)
            · intro hm
              exact absurd hm.symm hq
        constructor
        · intro htrue
          by_cases hmid : calledOf final n =
              calledOf (cset (cset (tasks.foldl (fun acc t => cset acc t.nid false) stA)
                w0.nid false) w0.nid true) n
          · have : n = w0.nid := (hst2 n).mp (hmid ▸ htrue)
            exact this ▸ Relation.ReflTransGen.refl
          · obtain ⟨c2, hc2, hpath⟩ :=
              (mc_frame _ pm hwfs f).2.2 _ _ _ hrun n hmid
            exact Relation.ReflTransGen.head ⟨w0, hlam, c2, hc2, rfl⟩ hpath
        · intro hpath
          rcases Relation.ReflTransGen.cases_head hpath with heq | ⟨m, hedge, hpath2⟩
          · subst heq
            exact (mc_preserve _ pm hwfs f).2.2 _ _ _ hrun w0.nid ((hst2 w0.nid).mpr rfl)
          · obtain ⟨w2, hlw, c3, hc3, hc3eq⟩ := hedge
            have hww : w2 = w0 := by
              rw [hlam] at hlw
              exact (Option.some_inj.mp hlw).symm
            subst hww
            exact (mc_pos _ pm hwfs hcons f).2.2 _ _ _ hrun
              (hcons _ _ hlam) c3 hc3 n (hc3eq ▸ hpath2)

/-- C1 witness: on the sample document (top-level workflow 6 calls, via a
scatter, subworkflow 11, which calls task 2), the `called` flag of task 2
matches Call-edge reachability from workflow 6, with the parent map
produced by `SetParents` and ample fuel. -/
theorem markCalled_called_iff_reachable_witness :
    calledOf ((markCalled (setParents exampleDoc) 20 exampleDoc).getD []) 2 = true ↔
      Relation.ReflTransGen (CallEdge (allWfAssoc exampleDoc)) 6 2 := by
  refine markCalled_called_iff_reachable exampleDoc (setParents exampleDoc) 20
    (Workflow.mk 6 posA "wf" Option.none
      [WFElt.scatter 7 posA "i" (Expr.mk 8 posA WDLType.int ExprKind.other [])
        [WFElt.call (CallNode.mk 9 posA "c9" (CalleeRef.mk true 11) [] ["out"])]]
      Option.none)
    rfl (by decide) (by decide) ?_
    ((markCalled (setParents exampleDoc) 20 exampleDoc).getD []) (by decide)
    2 (by decide)
  intro k w h
  by_cases h6 : k = 6
  · subst h6
    have hw : w = Workflow.mk 6 posA "wf" Option.none
        [WFElt.scatter 7 posA "i" (Expr.mk 8 posA WDLType.int ExprKind.other [])
          [WFElt.call (CallNode.mk 9 posA "c9" (CalleeRef.mk true 11) [] ["out"])]]
        Option.none := by
      have h2 : wfLookup (allWfAssoc exampleDoc) 6 =
          some (Workflow.mk 6 posA "wf" Option.none
            [WFElt.scatter 7 posA "i" (Expr.mk 8 posA WDLType.int ExprKind.other [])
              [WFElt.call (CallNode.mk 9 posA "c9" (CalleeRef.mk true 11) [] ["out"])]]
            Option.none) := rfl
      rw [h2] at h
      exact (Option.some_inj.mp h).symm
    subst hw
    decide
  · by_cases h11 : k = 11
    · subst h11
      have hw : w = Workflow.mk 11 posA "subwf" Option.none
          [WFElt.call (CallNode.mk 12 posA "c12" (CalleeRef.mk false 2) [] ["out"])]
          Option.none := by
        have h2 : wfLookup (allWfAssoc exampleDoc) 11 =
            some (Workflow.mk 11 posA "subwf" Option.none
              [WFElt.call (CallNode.mk 12 posA "c12" (CalleeRef.mk false 2) [] ["out"])]
              Option.none) := rfl
        rw [h2] at h
        exact (Option.some_inj.mp h).symm
      subst hw
      decide
    · exfalso
      have e6 : ((6 : Nat) == k) = false :=
        beq_eq_false_iff_ne.mpr (fun hq => h6 hq.symm)
      have e11 : ((11 : Nat) == k) = false :=
        beq_eq_false_iff_ne.mpr (fun hq => h11 hq.symm)
      have hls : allWfAssoc exampleDoc =
          [(6, Workflow.mk 6 posA "wf" Option.none
            [WFElt.scatter 7 posA "i" (Expr.mk 8 posA WDLType.int ExprKind.other [])
              [WFElt.call (CallNode.mk 9 posA "c9" (CalleeRef.mk true 11) [] ["out"])]]
            Option.none),
           (11, Workflow.mk 11 posA "subwf" Option.none
            [WFElt.call (CallNode.mk 12 posA "c12" (CalleeRef.mk false 2) [] ["out"])]
            Option.none)] := rfl
      have hnone : wfLookup (allWfAssoc exampleDoc) k = Option.none := by
        rw [hls, wfLookup]
        simp [List.find?, e6, e11]
      rw [hnone] at h
      exact absurd h (by simp)

end WDL
